import Mathlib

/-!
# Verification of the trip7_ppt translation pipeline's reconciliation stage

This development shallowly embeds the Python sources of the repository
(`ppt_content_filler.py`, `ppt_content_filler_complete.py`,
`1_ppt_content_extractor.py`, `ppt_content_extractor.py`,
`ppt_content_generator.py`) and proves or refutes the specification's
claims about them.

The intermediate artifact of the pipeline is a JSON document (an array of
slide records) written with Python's `json.dump(..., ensure_ascii=False,
indent=2)` and re-read with `json.load`.  We model that external collaborator
faithfully: a `Json` value type, a pretty-printing serializer `json_dump`
that mirrors CPython's output for the `indent=2` configuration (integer
numbers; `ensure_ascii=False` escape table), and a recursive-descent reader
`json_load`.  Numeric payloads of the interchange format (EMU geometry,
z-orders, slide numbers) are integers; floating-point style sizes are out of
scope of the embedding.
-/

/-- A JSON value as produced/consumed by the pipeline's intermediate files.
Objects keep their fields in insertion order, as Python dicts do. -/
inductive Json where
  | null
  | bool (b : Bool)
  | num (n : Int)
  | str (s : String)
  | arr (elems : List Json)
  | obj (fields : List (String × Json))

/-- The opening-brace character, kept out of string literals. -/
def braceL : Char := '\x7b'

/-- The closing-brace character, kept out of string literals. -/
def braceR : Char := '\x7d'

/-- Lower-case hexadecimal digit character for `n < 16` (CPython's `%04x`). -/
def hexDigitCh (n : Nat) : Char :=
  if n < 10 then Char.ofNat (48 + n) else Char.ofNat (87 + n)

/-- CPython `json` escape table for `ensure_ascii=False`: `\"`, `\\`, the five
short control escapes, `\u00XX` for the remaining control characters, and
every other character passed through raw. -/
def pyEscapeChar (c : Char) : List Char :=
  if c = '"' then ['\\', '"']
  else if c = '\\' then ['\\', '\\']
  else if c = '\n' then ['\\', 'n']
  else if c = '\r' then ['\\', 'r']
  else if c = '\t' then ['\\', 't']
  else if c = '\x08' then ['\\', 'b']
  else if c = '\x0c' then ['\\', 'f']
  else if c.toNat < 32 then
    ['\\', 'u', '0', '0', hexDigitCh (c.toNat / 16), hexDigitCh (c.toNat % 16)]
  else [c]

/-- A JSON string literal: quote, escaped characters, quote. -/
def encStr (s : String) : List Char :=
  '"' :: (s.data.flatMap pyEscapeChar ++ ['"'])

/-- Decimal digit character of `n < 10`. -/
def digitCh (n : Nat) : Char := Char.ofNat (48 + n)

/-- Decimal digit characters of `n`, most significant first. -/
def natChars (n : Nat) : List Char :=
  if h : n < 10 then [digitCh n]
  else natChars (n / 10) ++ [digitCh (n % 10)]
  decreasing_by exact Nat.div_lt_self (by omega) (by omega)

/-- Decimal representation of an integer, as CPython prints `int`. -/
def intChars : Int → List Char
  | .ofNat n => natChars n
  | .negSucc m => '-' :: natChars (m + 1)

/-- `d` spaces of indentation. -/
def pad (d : Nat) : List Char := List.replicate d ' '

mutual
/-- CPython `json.dump(v, ensure_ascii=False, indent=2)` output for a value
whose own lines are indented by `d` spaces (children by `d + 2`). -/
def encVal (d : Nat) : Json → List Char
  | .null => 'n' :: ['u', 'l', 'l']
  | .bool true => ['t', 'r', 'u', 'e']
  | .bool false => 'f' :: ['a', 'l', 's', 'e']
  | .num n => intChars n
  | .str s => encStr s
  | .arr [] => ['[', ']']
  | .arr (x :: xs) =>
      '[' :: '\n' :: (pad (d + 2) ++ (encVal (d + 2) x ++
        (encItems (d + 2) xs ++ ('\n' :: (pad d ++ [']'])))))
  | .obj [] => [braceL, braceR]
  | .obj (kv :: kvs) =>
      braceL :: '\n' :: (pad (d + 2) ++ (encField (d + 2) kv ++
        (encFields (d + 2) kvs ++ ('\n' :: (pad d ++ [braceR])))))

/-- The `",\n" ++ indent` separated tail items of a non-empty array. -/
def encItems (d : Nat) : List Json → List Char
  | [] => []
  | x :: xs => ',' :: '\n' :: (pad d ++ (encVal d x ++ encItems d xs))

/-- One `"key": value` member (CPython's `': '` key separator under `indent`). -/
def encField (d : Nat) : String × Json → List Char
  | (k, v) => encStr k ++ (':' :: ' ' :: encVal d v)

/-- The `",\n" ++ indent` separated tail members of a non-empty object. -/
def encFields (d : Nat) : List (String × Json) → List Char
  | [] => []
  | kv :: kvs => ',' :: '\n' :: (pad d ++ (encField d kv ++ encFields d kvs))
end

/-- `json.dump(v, f, ensure_ascii=False, indent=2)`: the file's content. -/
def json_dump (j : Json) : String := String.mk (encVal 0 j)

/-- JSON insignificant whitespace. -/
def isWsCh (c : Char) : Bool := c = ' ' || c = '\n' || c = '\t' || c = '\r'

/-- Drop leading insignificant whitespace. -/
def skipWs : List Char → List Char
  | c :: cs => if isWsCh c then skipWs cs else c :: cs
  | [] => []

/-- Is `c` a decimal digit? -/
def isDigitCh (c : Char) : Bool := 48 ≤ c.toNat && c.toNat ≤ 57

/-- Value of one hexadecimal digit. -/
def hexVal? (c : Char) : Option Nat :=
  if 48 ≤ c.toNat && c.toNat ≤ 57 then some (c.toNat - 48)
  else if 97 ≤ c.toNat && c.toNat ≤ 102 then some (c.toNat - 87)
  else if 65 ≤ c.toNat && c.toNat ≤ 70 then some (c.toNat - 55)
  else none

/-- Value of a `\uXXXX` escape's four hexadecimal digits. -/
def hex4? (a b c d : Char) : Option Nat := do
  let va ← hexVal? a
  let vb ← hexVal? b
  let vc ← hexVal? c
  let vd ← hexVal? d
  return ((va * 16 + vb) * 16 + vc) * 16 + vd

/-- The character a one-letter escape stands for. -/
def unesc? : Char → Option Char
  | '"' => some ('"')
  | '\\' => some '\\'
  | '/' => some '/'
  | 'n' => some ('\n')
  | 'r' => some '\r'
  | 't' => some '\t'
  | 'b' => some '\x08'
  | 'f' => some '\x0c'
  | _ => none

/-- Parse a string body after the opening quote, undoing escapes, up to and
including the closing quote. -/
def parseStrBody : List Char → Option (List Char × List Char)
  | [] => none
  | c :: r =>
      if c = '"' then some ([], r)
      else if c = '\\' then
        match r with
        | [] => none
        | e :: r2 =>
            if e = 'u' then
              match r2 with
              | a :: b :: c1 :: d :: r3 =>
                  match hex4? a b c1 d with
                  | some n =>
                      match parseStrBody r3 with
                      | some (s, r4) => some (Char.ofNat n :: s, r4)
                      | none => none
                  | none => none
              | _ => none
            else
              match unesc? e with
              | some ch =>
                  match parseStrBody r2 with
                  | some (s, r4) => some (ch :: s, r4)
                  | none => none
              | none => none
      else
        match parseStrBody r with
        | some (s, r4) => some (c :: s, r4)
        | none => none

/-- Split a maximal run of decimal digits off the front. -/
def takeDigits : List Char → List Char × List Char
  | c :: cs =>
      if isDigitCh c then
        let (ds, r) := takeDigits cs
        (c :: ds, r)
      else ([], c :: cs)
  | [] => ([], [])

/-- Numeric value of a digit run. -/
def digitsToNat (ds : List Char) : Nat :=
  ds.foldl (fun a c => a * 10 + (c.toNat - 48)) 0

/-- Parse an integer literal (optional minus sign, then digits). -/
def parseInt : List Char → Option (Int × List Char)
  | [] => none
  | c :: cs =>
      if c = '-' then
        let (ds, r) := takeDigits cs
        if ds.isEmpty then none else some (-(digitsToNat ds : Int), r)
      else
        let (ds, r) := takeDigits (c :: cs)
        if ds.isEmpty then none else some ((digitsToNat ds : Int), r)

mutual
/-- Fueled recursive-descent reader for one JSON value (the model of what
`json.load` accepts on the pipeline's own files). -/
def parseVal : Nat → List Char → Option (Json × List Char)
  | 0, _ => none
  | f + 1, cs =>
      match skipWs cs with
      | 'n' :: 'u' :: 'l' :: 'l' :: r => some (.null, r)
      | 't' :: 'r' :: 'u' :: 'e' :: r => some (.bool true, r)
      | 'f' :: 'a' :: 'l' :: 's' :: 'e' :: r => some (.bool false, r)
      | '"' :: r =>
          match parseStrBody r with
          | some (s, r1) => some (.str (String.mk s), r1)
          | none => none
      | '[' :: r =>
          match skipWs r with
          | [] => none
          | c1 :: r1 =>
              if c1 = ']' then some (.arr [], r1)
              else
                match parseItems f (c1 :: r1) with
                | some (vs, r2) => some (.arr vs, r2)
                | none => none
      | c :: r =>
          if c = braceL then
            match skipWs r with
            | c1 :: r1 =>
                if c1 = braceR then some (.obj [], r1)
                else
                  match parseFields f (c1 :: r1) with
                  | some (ms, r2) => some (.obj ms, r2)
                  | none => none
            | [] => none
          else
            match parseInt (c :: r) with
            | some (n, r1) => some (.num n, r1)
            | none => none
      | [] => none

/-- One-or-more comma-separated array elements, through the closing `]`. -/
def parseItems : Nat → List Char → Option (List Json × List Char)
  | 0, _ => none
  | f + 1, cs =>
      match parseVal f cs with
      | none => none
      | some (v, r) =>
          match skipWs r with
          | ',' :: r1 =>
              match parseItems f r1 with
              | some (vs, r2) => some (v :: vs, r2)
              | none => none
          | ']' :: r1 => some ([v], r1)
          | _ => none

/-- One-or-more comma-separated object members, through the closing brace. -/
def parseFields : Nat → List Char → Option (List (String × Json) × List Char)
  | 0, _ => none
  | f + 1, cs =>
      match skipWs cs with
      | '"' :: r =>
          match parseStrBody r with
          | none => none
          | some (k, r1) =>
              match skipWs r1 with
              | ':' :: r2 =>
                  match parseVal f r2 with
                  | none => none
                  | some (v, r3) =>
                      match skipWs r3 with
                      | ',' :: r4 =>
                          match parseFields f r4 with
                          | some (ms, r5) => some ((String.mk k, v) :: ms, r5)
                          | none => none
                      | c4 :: r4 =>
                          if c4 = braceR then some ([(String.mk k, v)], r4)
                          else none
                      | [] => none
              | _ => none
      | _ => none
end

/-- `json.load`: read one value and require only whitespace after it. -/
def json_load (s : String) : Option Json :=
  match parseVal (s.data.length + 1) s.data with
  | some (j, r) => if (skipWs r).isEmpty then some j else none
  | none => none

/-!
## Data model

The record shapes written by the extractors (`ppt_content_extractor.py`,
`1_ppt_content_extractor.py`) and consumed by the fillers and the generator.
Optional fields model dictionary keys that some pipeline stages omit: the
simple extractor writes only `content`; the rich extractor adds `position`,
`z_order` and `style`; the translator adds `original_content`.
-/

/-- `position` geometry: `left`/`top`/`width`/`height` in EMU. -/
structure PptPosition where
  left : Int
  top : Int
  width : Int
  height : Int
deriving DecidableEq, Repr

/-- One run's style record, as the rich extractor writes it (all keys present,
possibly null). -/
structure RunInfo where
  text : String
  font_name : Option String
  font_size : Option Int
  bold : Option Bool
  italic : Option Bool
  underline : Option String
  color : Option String
deriving DecidableEq, Repr

/-- One paragraph's style record. -/
structure ParaInfo where
  text : String
  alignment : Option String
  runs : List RunInfo
deriving DecidableEq, Repr

/-- The `style` payload: a list of paragraph records. -/
structure StyleInfo where
  paragraphs : List ParaInfo
deriving DecidableEq, Repr

/-- A text fragment of a slide record.  Only `content` is guaranteed; the
other keys appear in the dictionaries of some stages only. -/
structure TextFragment where
  content : String
  original_content : Option String := none
  position : Option PptPosition := none
  z_order : Option Int := none
  style : Option StyleInfo := none
deriving DecidableEq, Repr

/-- `original_size` of an image (either side may be null). -/
structure OrigSize where
  width : Option Int
  height : Option Int
deriving DecidableEq, Repr

/-- An image reference of a slide record. -/
structure ImageRef where
  filename : String
  position : Option PptPosition := none
  z_order : Option Int := none
  original_size : Option OrigSize := none
deriving DecidableEq, Repr

/-- One slide's record in the intermediate JSON artifact. -/
structure SlideRecord where
  slide_number : Int
  slide_width : Option Int := none
  slide_height : Option Int := none
  texts : List TextFragment
  images : List ImageRef
deriving DecidableEq, Repr

/-!
## The record ⇄ JSON codec

`…ToJson` maps a record onto the dictionary shape the extractors build
(optional fields appear only when the stage set them; always-written-but-
nullable keys are emitted as `null`).  `…FromJson` reads a dictionary the way
the Python consumers do: `dict.get(key, default)` lookups with the consumers'
defaults, failing only where the Python code would raise (a non-list where a
list of slides is iterated, a non-dict where key access happens).
-/

/-- First-match lookup in an object's fields (Python dicts have unique keys). -/
def jget : List (String × Json) → String → Option Json
  | [], _ => none
  | (k, v) :: rest, key => if key = k then some v else jget rest key

/-- A key that is present only when the optional payload exists. -/
def optEntry (k : String) : Option Json → List (String × Json)
  | none => []
  | some j => [(k, j)]

/-- A nullable always-present key. -/
def nullable (enc : α → Json) : Option α → Json
  | none => .null
  | some a => enc a

def positionToJson (p : PptPosition) : Json :=
  .obj [("left", .num p.left), ("top", .num p.top),
        ("width", .num p.width), ("height", .num p.height)]

def runToJson (r : RunInfo) : Json :=
  .obj [("text", .str r.text),
        ("font_name", nullable .str r.font_name),
        ("font_size", nullable .num r.font_size),
        ("bold", nullable .bool r.bold),
        ("italic", nullable .bool r.italic),
        ("underline", nullable .str r.underline),
        ("color", nullable .str r.color)]

def paraToJson (p : ParaInfo) : Json :=
  .obj [("text", .str p.text),
        ("alignment", nullable .str p.alignment),
        ("runs", .arr (p.runs.map runToJson))]

def styleToJson (s : StyleInfo) : Json :=
  .obj [("paragraphs", .arr (s.paragraphs.map paraToJson))]

def fragmentToJson (t : TextFragment) : Json :=
  .obj ([("content", .str t.content)] ++
        optEntry "original_content" (t.original_content.map .str) ++
        optEntry "position" (t.position.map positionToJson) ++
        optEntry "z_order" (t.z_order.map .num) ++
        optEntry "style" (t.style.map styleToJson))

def origSizeToJson (s : OrigSize) : Json :=
  .obj [("width", nullable .num s.width), ("height", nullable .num s.height)]

def imageToJson (i : ImageRef) : Json :=
  .obj ([("filename", .str i.filename)] ++
        optEntry "position" (i.position.map positionToJson) ++
        optEntry "z_order" (i.z_order.map .num) ++
        optEntry "original_size" (i.original_size.map origSizeToJson))

def slideToJson (s : SlideRecord) : Json :=
  .obj ([("slide_number", .num s.slide_number)] ++
        optEntry "slide_width" (s.slide_width.map .num) ++
        optEntry "slide_height" (s.slide_height.map .num) ++
        [("texts", .arr (s.texts.map fragmentToJson)),
         ("images", .arr (s.images.map imageToJson))])

/-- The intermediate artifact: the JSON array of slide records. -/
def slidesToJson (ss : List SlideRecord) : Json := .arr (ss.map slideToJson)

/-- Read a string-valued key, `None`/absent as `none`. -/
def jgetStr (ms : List (String × Json)) (k : String) : Option String :=
  match jget ms k with
  | some (.str s) => some s
  | _ => none

/-- Read an integer-valued key, `None`/absent as `none`. -/
def jgetNum (ms : List (String × Json)) (k : String) : Option Int :=
  match jget ms k with
  | some (.num n) => some n
  | _ => none

/-- Read a boolean-valued key, `None`/absent as `none`. -/
def jgetBool (ms : List (String × Json)) (k : String) : Option Bool :=
  match jget ms k with
  | some (.bool b) => some b
  | _ => none

/-- Decode each element, failing if any element fails (the Python loops
raise out of the whole operation on a malformed element). -/
def optMapList (f : α → Option β) : List α → Option (List β)
  | [] => some []
  | a :: t =>
      match f a with
      | some b =>
          match optMapList f t with
          | some bs => some (b :: bs)
          | none => none
      | none => none

def positionFromJson : Json → Option PptPosition
  | .obj ms =>
      some { left := (jgetNum ms "left").getD 0,
             top := (jgetNum ms "top").getD 0,
             width := (jgetNum ms "width").getD 0,
             height := (jgetNum ms "height").getD 0 }
  | _ => none

def runFromJson : Json → Option RunInfo
  | .obj ms =>
      some { text := (jgetStr ms "text").getD "",
             font_name := jgetStr ms "font_name",
             font_size := jgetNum ms "font_size",
             bold := jgetBool ms "bold",
             italic := jgetBool ms "italic",
             underline := jgetStr ms "underline",
             color := jgetStr ms "color" }
  | _ => none

def paraFromJson : Json → Option ParaInfo
  | .obj ms => do
      let runs ← match jget ms "runs" with
        | some (.arr rs) => optMapList runFromJson rs
        | _ => some []
      return { text := (jgetStr ms "text").getD "",
               alignment := jgetStr ms "alignment",
               runs := runs }
  | _ => none

def styleFromJson : Json → Option StyleInfo
  | .obj ms => do
      let ps ← match jget ms "paragraphs" with
        | some (.arr xs) => optMapList paraFromJson xs
        | _ => some []
      return { paragraphs := ps }
  | _ => none

def fragmentFromJson : Json → Option TextFragment
  | .obj ms => do
      let style ← match jget ms "style" with
        | some j => (styleFromJson j).map some
        | none => some none
      let pos ← match jget ms "position" with
        | some j => (positionFromJson j).map some
        | none => some none
      return { content := (jgetStr ms "content").getD "",
               original_content := jgetStr ms "original_content",
               position := pos,
               z_order := jgetNum ms "z_order",
               style := style }
  | _ => none

def origSizeFromJson : Json → Option OrigSize
  | .obj ms => some { width := jgetNum ms "width", height := jgetNum ms "height" }
  | _ => none

def imageFromJson : Json → Option ImageRef
  | .obj ms => do
      let pos ← match jget ms "position" with
        | some j => (positionFromJson j).map some
        | none => some none
      let osz ← match jget ms "original_size" with
        | some j => (origSizeFromJson j).map some
        | none => some none
      return { filename := (jgetStr ms "filename").getD "",
               position := pos,
               z_order := jgetNum ms "z_order",
               original_size := osz }
  | _ => none

def slideFromJson : Json → Option SlideRecord
  | .obj ms => do
      let texts ← match jget ms "texts" with
        | some (.arr ts) => optMapList fragmentFromJson ts
        | _ => some []
      let images ← match jget ms "images" with
        | some (.arr is) => optMapList imageFromJson is
        | _ => some []
      return { slide_number := (jgetNum ms "slide_number").getD 0,
               slide_width := jgetNum ms "slide_width",
               slide_height := jgetNum ms "slide_height",
               texts := texts,
               images := images }
  | _ => none

/-- Decode the intermediate artifact's top-level array. -/
def slidesFromJson : Json → Option (List SlideRecord)
  | .arr xs => optMapList slideFromJson xs
  | _ => none

/-!
## Character-level models of the Python string primitives

`str.strip`, `str.split('\\n')` and `str.startswith` are re-implemented over
the character list so that concrete runs reduce inside the kernel.
-/

/-- The characters Python's `str.strip()` removes (`str.isspace()`). -/
def isSpaceCh (c : Char) : Bool :=
  c.toNat = 9 || c.toNat = 10 || c.toNat = 11 || c.toNat = 12 || c.toNat = 13 ||
  (28 <= c.toNat && c.toNat <= 31) || c.toNat = 32 || c.toNat = 0x85 ||
  c.toNat = 0xA0 || c.toNat = 0x1680 ||
  (0x2000 <= c.toNat && c.toNat <= 0x200A) ||
  c.toNat = 0x2028 || c.toNat = 0x2029 || c.toNat = 0x202F || c.toNat = 0x205F ||
  c.toNat = 0x3000

/-- Python `str.strip()`: drop leading and trailing whitespace. -/
def pyStrip (s : String) : String :=
  String.mk (((s.data.dropWhile isSpaceCh).reverse.dropWhile isSpaceCh).reverse)

/-- Python `str.split('\\n')`. -/
def splitNl : List Char -> List String
  | [] => [""]
  | c :: cs =>
      if c = '\n' then "" :: splitNl cs
      else
        match splitNl cs with
        | [] => [String.mk [c]]
        | s :: ss => String.mk (c :: s.data) :: ss

/-- Does `cs` start with the literal `ps`? -/
def startsWithCh : List Char -> List Char -> Bool
  | _, [] => true
  | [], _ :: _ => false
  | c :: cs, p :: ps => c = p && startsWithCh cs ps

/-- Python `str.startswith(pre)`. -/
def pyStartsWith (s pre : String) : Bool := startsWithCh s.data pre.data

/-!
## Translator (`1_ppt_content_extractor.py`)

The external translation service is a parameter: on success it yields the
raw message content (which the code strips), on failure it raises — modelled
as `Except`.
-/

/-- `translate_to_japanese`: call the service; on success return the stripped
response, on any exception fall back to the original text. -/
def translate_to_japanese (svc : String → Except String String) (text : String) : String :=
  match svc text with
  | .ok response => pyStrip response
  | .error _ => text

/-- `batch_translate_slides`: one service call per fragment, keeping slide
number and images, recording the original text next to the translation. -/
def batch_translate_slides (svc : String → Except String String)
    (slides_data : List SlideRecord) : List SlideRecord :=
  slides_data.map fun slide =>
    { slide_number := slide.slide_number,
      texts := slide.texts.map fun text_item =>
        { content := translate_to_japanese svc text_item.content,
          original_content := some text_item.content },
      images := slide.images }

/-!
## Structured-mode reconciliation (`ppt_content_filler.py`)
-/

/-- The warnings `fill_japanese_content` prints while reconciling. -/
inductive FillWarning where
  /-- `第{n}页文本块{i+1}没有对应的翻译，保持原文` -/
  | keepOriginal (slide : Int) (blockIdx : Nat)
  /-- `第{n}页翻译的文本块数量(..)超过原始数量(..)` -/
  | surplus (slide : Int) (translated original : Nat)
  /-- `第{n}页没有找到对应的翻译内容` -/
  | noTranslation (slide : Int)
deriving DecidableEq, Repr

/-- The parsed translated-text source: insertion-ordered mapping from page
number to that page's translated blocks (a Python dict). -/
abbrev TransMap := List (Int × List String)

/-- Dict lookup (keys are unique by construction). -/
def lookupMap : TransMap → Int → Option (List String)
  | [], _ => none
  | (k, v) :: rest, key => if key = k then some v else lookupMap rest key

/-- Dict insertion: overwrite an existing key in place, else append. -/
def updateMap (m : TransMap) (k : Int) (v : List String) : TransMap :=
  if m.any (fun kv => kv.1 = k) then
    m.map (fun kv => if kv.1 = k then (k, v) else kv)
  else m ++ [(k, v)]

/-- The per-fragment loop of `fill_japanese_content`: fragment `i` takes
`translated_blocks[i]` when it exists, otherwise keeps its content and a
keep-original warning is printed for index `i`. -/
def fillTexts (blocks : List String) : List TextFragment → Nat → List TextFragment × List Nat
  | [], _ => ([], [])
  | t :: ts, i =>
      let (ts', ws) := fillTexts blocks ts (i + 1)
      if i < blocks.length then
        ({ t with content := blocks.getD i "" } :: ts', ws)
      else (t :: ts', i :: ws)

/-- Reconcile one slide against the parsed mapping: content-only replacement
index-for-index, shortfall kept as original (warned), surplus warned, a slide
without an entry passed through (warned). -/
def fillSlide (m : TransMap) (slide : SlideRecord) : SlideRecord × List FillWarning :=
  match lookupMap m slide.slide_number with
  | none => (slide, [.noTranslation slide.slide_number])
  | some translated_blocks =>
      let (texts', missed) := fillTexts translated_blocks slide.texts 0
      let ws := missed.map (FillWarning.keepOriginal slide.slide_number)
      let ws := ws ++
        (if translated_blocks.length > slide.texts.length then
          [.surplus slide.slide_number translated_blocks.length slide.texts.length]
        else [])
      ({ slide with texts := texts' }, ws)

/-- The whole structured-mode pass over the slide list, collecting warnings
in emission order. -/
def fillSlides (m : TransMap) : List SlideRecord → List SlideRecord × List FillWarning
  | [] => ([], [])
  | slide :: rest =>
      let (s', w) := fillSlide m slide
      let (rs, ws) := fillSlides m rest
      (s' :: rs, w ++ ws)

/-- How many distinct slides the keep-original warnings identify as
under-translated. -/
def underTranslatedSlides (ws : List FillWarning) : Nat :=
  ((ws.filterMap fun w =>
    match w with
    | .keepOriginal s _ => some s
    | _ => none).dedup).length

/-!
### The translated-text source reader (`parse_translated_txt`)

`re.split(r'=== 第(\d+)ページ ===', content)` alternates text segments with
captured page numbers; the code pairs each captured number with the segment
after it.  `re.findall(r'テキストブロック \d+:\s*([\s\S]*?)(?=テキストブロック \d+:|$)',
page)` captures the text between consecutive block markers; combined with the
subsequent `strip()`, that is: split the page at block markers, drop what
precedes the first marker, strip each piece, keep the non-empty ones.
-/

/-- Match `pre` as a literal prefix. -/
def dropLit : List Char → List Char → Option (List Char)
  | [], cs => some cs
  | p :: ps, c :: cs => if c = p then dropLit ps cs else none
  | _ :: _, [] => none

/-- Match the page marker `=== 第(\d+)ページ ===` at the head, returning the
captured number and the remainder. -/
def matchPageMarker (cs : List Char) : Option (Int × List Char) := do
  let r1 ← dropLit "=== 第".data cs
  let (ds, r2) := takeDigits r1
  if ds.isEmpty then none
  else
    let r3 ← dropLit "ページ ===".data r2
    return ((digitsToNat ds : Int), r3)

/-- Match the block marker `テキストブロック \d+:` at the head. -/
def matchBlockMarker (cs : List Char) : Option (List Char) := do
  let r1 ← dropLit "テキストブロック ".data cs
  let (ds, r2) := takeDigits r1
  if ds.isEmpty then none
  else match r2 with
    | ':' :: r3 => some r3
    | _ => none

/-- Scan for non-overlapping page markers: the text before the first marker,
then each captured page number with the segment up to the next marker. -/
def splitPages : Nat → List Char → List Char × List (Int × List Char)
  | 0, cs => (cs, [])
  | _ + 1, [] => ([], [])
  | fuel + 1, c :: cs =>
      match matchPageMarker (c :: cs) with
      | some (n, rest) =>
          let (seg, pages) := splitPages fuel rest
          ([], (n, seg) :: pages)
      | none =>
          let (pre, pages) := splitPages fuel cs
          (c :: pre, pages)

/-- Scan for non-overlapping block markers inside one page. -/
def splitBlocks : Nat → List Char → List Char × List (List Char)
  | 0, cs => (cs, [])
  | _ + 1, [] => ([], [])
  | fuel + 1, c :: cs =>
      match matchBlockMarker (c :: cs) with
      | some rest =>
          let (seg, blocks) := splitBlocks fuel rest
          ([], seg :: blocks)
      | none =>
          let (pre, blocks) := splitBlocks fuel cs
          (c :: pre, blocks)

/-- `parse_translated_txt` applied to the file's content: page-split, then per
page block-extraction with strip-and-drop-empty, accumulated into a dict
(`parsed_data[page_number] = cleaned_blocks`). -/
def parse_translated_txt (content : String) : TransMap :=
  let (_, pages) := splitPages content.data.length content.data
  pages.foldl
    (fun parsed_data pg =>
      let page_content := pyStrip (String.mk pg.2)
      let (_, blocks) := splitBlocks page_content.data.length page_content.data
      let cleaned_blocks :=
        (blocks.map (fun b => pyStrip (String.mk b))).filter (fun b => b ≠ "")
      updateMap parsed_data pg.1 cleaned_blocks)
    []

/-- `fill_japanese_content`, end to end.  The two inputs are the contents of
the original-JSON file and of the translated-text file (`none` = the file is
missing).  The result is the content written to the output file, `none` when
the run writes nothing: a missing original file raises `FileNotFoundError`
which the function catches, logs and swallows; malformed JSON (or a shape the
loop would crash on) is likewise caught and swallowed.  A missing or
unparsable translated-text file is absorbed inside `parse_translated_txt`,
which returns the empty mapping, and the run continues. -/
def fill_japanese_content (origFile translatedFile : Option String) :
    Option (List SlideRecord) :=
  match origFile with
  | none => none
  | some originalText =>
      match (json_load originalText).bind slidesFromJson with
      | none => none
      | some original_data =>
          let translated_texts :=
            match translatedFile with
            | none => []
            | some t => parse_translated_txt t
          some (fillSlides translated_texts original_data).1

/-!
## Flat-mode reconciliation (`ppt_content_filler_complete.py`)
-/

/-- `extract_all_japanese_text_complete` on the translated file's content:
split on newlines, strip every line, keep the non-empty ones that are not
format-marker lines. -/
def extract_all_japanese_text_complete (content : String) : List String :=
  ((splitNl content.data).map pyStrip).filter fun line =>
    line ≠ "" && !pyStartsWith line "=== 第" && !pyStartsWith line "テキストブロック"

/-- Does `if content.strip():` hold for this fragment? -/
def hasContent (t : TextFragment) : Bool := pyStrip t.content ≠ ""

/-- The `(slide_idx, text_idx)` pairs contributed by one slide's `texts`,
starting at fragment index `ti`. -/
def textPositions (si : Nat) : List TextFragment → Nat → List (Nat × Nat)
  | [], _ => []
  | t :: ts, ti =>
      (if hasContent t then [(si, ti)] else []) ++ textPositions si ts (ti + 1)

/-- The flat position list over all slides from slide index `si` on. -/
def positionsAux : List SlideRecord → Nat → List (Nat × Nat)
  | [], _ => []
  | slide :: rest, si => textPositions si slide.texts 0 ++ positionsAux rest (si + 1)

/-- `get_all_text_positions`: all `(slide_idx, text_idx)` with non-empty
stripped content, in slide order then fragment order. -/
def positionsOf (slides_data : List SlideRecord) : List (Nat × Nat) :=
  positionsAux slides_data 0

/-- The fragment at `(slide_idx, text_idx)`, when the indices are in range. -/
def fragAt (slides_data : List SlideRecord) (q : Nat × Nat) : Option TextFragment :=
  (slides_data[q.1]?).bind fun slide => slide.texts[q.2]?

/-- Overwrite `texts[ti]['content']`. -/
def setFragContent : List TextFragment → Nat → String → List TextFragment
  | [], _, _ => []
  | t :: ts, 0, c => { t with content := c } :: ts
  | t :: ts, ti + 1, c => t :: setFragContent ts ti c

/-- Overwrite `slides_data[si]['texts'][ti]['content']`. -/
def setContent : List SlideRecord → Nat → Nat → String → List SlideRecord
  | [], _, _, _ => []
  | slide :: rest, 0, ti, c => { slide with texts := setFragContent slide.texts ti c } :: rest
  | slide :: rest, si + 1, ti, c => slide :: setContent rest si ti c

/-- The replacement loop of `complete_replacement`: walk the position list
keeping the running `japanese_index`, resetting it to `0` whenever it has
reached the end of the translated list, assigning the indexed translated
string to the position, then incrementing.  Returns the updated slides and
the final `japanese_index`. -/
def assignLoop (jps : List String) :
    List SlideRecord → List (Nat × Nat) → Nat → List SlideRecord × Nat
  | slides_data, [], japanese_index => (slides_data, japanese_index)
  | slides_data, (si, ti) :: rest, japanese_index =>
      let j := if japanese_index ≥ jps.length then 0 else japanese_index
      let slides' := setContent slides_data si ti (jps.getD j "")
      assignLoop jps slides' rest (j + 1)

/-- The dictionary `{"content": remaining_text}` appended for leftovers. -/
def mkNewFragment (c : String) : TextFragment := { content := c }

/-- Append the leftover fragments to the last slide's `texts`. -/
def appendLast : List SlideRecord → List TextFragment → List SlideRecord
  | [], _ => []
  | [slide], extra => [{ slide with texts := slide.texts ++ extra }]
  | slide :: rest, extra => slide :: appendLast rest extra

/-- `complete_replacement` on decoded inputs: `none` models the early returns
(no output written) when either the translated list or the position list is
empty; otherwise the cyclic assignment runs and `japanese_texts[japanese_index:]`
is appended to the last slide when non-empty. -/
def complete_replacement (slides_data : List SlideRecord) (japanese_texts : List String) :
    Option (List SlideRecord) :=
  if japanese_texts.isEmpty then none
  else if (positionsOf slides_data).isEmpty then none
  else
    let (slides', japanese_index) :=
      assignLoop japanese_texts slides_data (positionsOf slides_data) 0
    let remaining_japanese := japanese_texts.drop japanese_index
    some (if remaining_japanese.isEmpty then slides'
          else appendLast slides' (remaining_japanese.map mkNewFragment))

/-- All `content` strings of a record set, in document order. -/
def contentsOf (slides_data : List SlideRecord) : List String :=
  (slides_data.map (fun slide => slide.texts.map (fun t => t.content))).flatten

/-- Total number of text fragments in a record set. -/
def totalFrags (slides_data : List SlideRecord) : Nat :=
  (slides_data.map (fun slide => slide.texts.length)).sum

/-!
### The validation pass (`validate_complete_replacement`)
-/

/-- A character the Japanese test `re.search(r'[ひらがなカタカナーァ-ヴ]', ·)`
matches: the literal characters of the class (`ひ`, `ら`, `が`, `な`, `カ`,
`タ`, `ナ`, `ー`) plus the katakana range `ァ`-`ヴ` (U+30A1–U+30F4). -/
def isKanaClassChar (c : Char) : Bool :=
  c = 'ひ' || c = 'ら' || c = 'が' || c = 'な' || c = 'カ' || c = 'タ' ||
  c = 'ナ' || c = 'ー' || (0x30A1 ≤ c.toNat && c.toNat ≤ 0x30F4)

/-- A CJK ideograph, `re.search(r'[一-鿿]', ·)`'s class. -/
def isCJKChar (c : Char) : Bool := 0x4E00 ≤ c.toNat && c.toNat ≤ 0x9FFF

/-- An ASCII letter, `re.search(r'[a-zA-Z]', ·)`'s class. -/
def isLatinChar (c : Char) : Bool :=
  (65 ≤ c.toNat && c.toNat ≤ 90) || (97 ≤ c.toNat && c.toNat ≤ 122)

def hasKana (s : String) : Bool := s.data.any isKanaClassChar
def hasCJK (s : String) : Bool := s.data.any isCJKChar
def hasLatin (s : String) : Bool := s.data.any isLatinChar

/-- The counters and defect examples the validation pass accumulates. -/
structure ValidationReport where
  japanese_count : Nat := 0
  chinese_count : Nat := 0
  english_count : Nat := 0
  other_count : Nat := 0
  total_count : Nat := 0
  chinese_examples : List String := []
deriving DecidableEq, Repr

/-- One content string's classification step: skip blank, else bucket by the
first matching character test, collecting at most ten truncated residue
examples. -/
def validateStep (r : ValidationReport) (content : String) : ValidationReport :=
  if pyStrip content = "" then r
  else
    let r := { r with total_count := r.total_count + 1 }
    if hasKana content then { r with japanese_count := r.japanese_count + 1 }
    else if hasCJK content then
      { r with chinese_count := r.chinese_count + 1,
               chinese_examples :=
                 if r.chinese_examples.length < 10 then
                   r.chinese_examples ++ [content.take 50]
                 else r.chinese_examples }
    else if hasLatin content then { r with english_count := r.english_count + 1 }
    else { r with other_count := r.other_count + 1 }

/-- `validate_complete_replacement` on a decoded record set. -/
def validate_complete_replacement (slides_data : List SlideRecord) : ValidationReport :=
  (contentsOf slides_data).foldl validateStep ⟨0, 0, 0, 0, 0, []⟩

/-!
## Proof-support definitions
-/

/-- A remainder that cannot extend a parsed integer: empty or headed by a
non-digit.  Every separator the serializer emits after a number qualifies. -/
def numSafe : List Char → Bool
  | [] => true
  | c :: _ => !isDigitCh c

/-- Frame relation on fragments: everything except `content` agrees. -/
def samePlace (a b : TextFragment) : Prop :=
  a.original_content = b.original_content ∧ a.position = b.position ∧
  a.z_order = b.z_order ∧ a.style = b.style

/-- Frame relation on slides: everything except `texts` agrees. -/
def sameShell (a b : SlideRecord) : Prop :=
  a.slide_number = b.slide_number ∧ a.slide_width = b.slide_width ∧
  a.slide_height = b.slide_height ∧ a.images = b.images

/-- The exact class of contents the validation pass counts as source-script
residue: non-blank, no character of the kana class, some CJK ideograph. -/
def residueTest (s : String) : Bool :=
  pyStrip s ≠ "" && !hasKana s && hasCJK s

/-- A bare fragment carrying only content. -/
def cFrag (s : String) : TextFragment := { content := s }

/-- One slide with three non-empty fragments (concrete test input). -/
def exSlide3 : SlideRecord :=
  { slide_number := 1, texts := [cFrag "一", cFrag "二", cFrag "三"], images := [] }

/-- A concrete original-JSON file content for the structured-filler runs. -/
def exOrigJsonText : String := json_dump (slidesToJson [exSlide3])

/-- A concrete translated-text source with no parsable tagging at all. -/
def exGarbageTxt : String := "完全に壊れた内容 / no page or block markers here"

/-- Slide-level frame relation: the slides agree except possibly in the
`content` strings of corresponding fragments. -/
def contentOnly (a b : SlideRecord) : Prop :=
  sameShell a b ∧ a.texts.length = b.texts.length ∧
  ∀ (j : Nat) (t t' : TextFragment),
    a.texts[j]? = some t → b.texts[j]? = some t' → samePlace t t'

/-!
## Proofs — the JSON serializer/reader round-trip

Following the usual codec-inversion structure: digit-level lemmas, the
escape-inverse lemma for strings, head-character and whitespace lemmas, then
a mutual induction over the grammar.
-/

theorem digitCh_toNat (n : Nat) (h : n < 10) : (digitCh n).toNat = 48 + n := by
  interval_cases n <;> decide

theorem isDigitCh_digitCh (n : Nat) (h : n < 10) : isDigitCh (digitCh n) = true := by
  interval_cases n <;> decide

theorem natChars_ne_nil (n : Nat) : natChars n ≠ [] := by
  rw [natChars.eq_def]
  split <;> simp

theorem natChars_digits (n : Nat) : ∀ c ∈ natChars n, isDigitCh c = true := by
  induction n using Nat.strongRecOn with
  | _ n ih =>
    rw [natChars.eq_def]
    split
    · rename_i h
      intro c hc
      rw [List.mem_singleton] at hc
      subst hc
      exact isDigitCh_digitCh _ h
    · rename_i h
      intro c hc
      rw [List.mem_append] at hc
      rcases hc with hc | hc
      · exact ih (n / 10) (Nat.div_lt_self (by omega) (by omega)) c hc
      · rw [List.mem_singleton] at hc
        subst hc
        exact isDigitCh_digitCh _ (Nat.mod_lt _ (by omega))

theorem natChars_cons (n : Nat) : ∃ c t, natChars n = c :: t ∧ isDigitCh c = true := by
  match h : natChars n with
  | [] => exact absurd h (natChars_ne_nil n)
  | c :: t => exact ⟨c, t, rfl, natChars_digits n c (h ▸ List.mem_cons_self ..)⟩

theorem digitsToNat_natChars (n : Nat) : digitsToNat (natChars n) = n := by
  induction n using Nat.strongRecOn with
  | _ n ih =>
    rw [natChars.eq_def]
    split
    · rename_i h
      simp only [digitsToNat, List.foldl_cons, List.foldl_nil]
      rw [digitCh_toNat n h]
      omega
    · rename_i h
      simp only [digitsToNat, List.foldl_append, List.foldl_cons, List.foldl_nil]
      have ihd := ih (n / 10) (Nat.div_lt_self (by omega) (by omega))
      simp only [digitsToNat] at ihd
      rw [ihd, digitCh_toNat (n % 10) (Nat.mod_lt _ (by omega))]
      omega

theorem takeDigits_stop (cs : List Char) (h : numSafe cs = true) :
    takeDigits cs = ([], cs) := by
  match cs with
  | [] => rfl
  | c :: t =>
      simp only [numSafe, Bool.not_eq_true'] at h
      simp [takeDigits, h]

theorem takeDigits_run (ds : List Char) (hds : ∀ c ∈ ds, isDigitCh c = true)
    (rest : List Char) (hrest : numSafe rest = true) :
    takeDigits (ds ++ rest) = (ds, rest) := by
  induction ds with
  | nil => simpa using takeDigits_stop rest hrest
  | cons c t ih =>
      have hc := hds c (by simp)
      have ht := ih (fun x hx => hds x (by simp [hx]))
      simp [takeDigits, hc, ht]

theorem isDigitCh_spec (c : Char) (h : isDigitCh c = true) :
    isWsCh c = false ∧ c ≠ '-' ∧ c ≠ ']' ∧ c ≠ braceR ∧ c ≠ braceL ∧
    c ≠ 'n' ∧ c ≠ 't' ∧ c ≠ 'f' ∧ c ≠ '"' ∧ c ≠ '[' := by
  simp only [isDigitCh, Bool.and_eq_true, decide_eq_true_eq] at h
  refine ⟨?_, ?_⟩
  · simp only [isWsCh, Bool.or_eq_false_iff, decide_eq_false_iff_not]
    refine ⟨⟨⟨?_, ?_⟩, ?_⟩, ?_⟩ <;> (intro hr; rw [hr] at h; revert h; decide)
  · refine ⟨?_, ?_, ?_, ?_, ?_, ?_, ?_, ?_, ?_⟩ <;>
      (intro hr; rw [hr] at h; revert h; decide)

theorem parseInt_intChars (n : Int) (rest : List Char) (h : numSafe rest = true) :
    parseInt (intChars n ++ rest) = some (n, rest) := by
  match n with
  | .ofNat m =>
      obtain ⟨c, t, hct, hc⟩ := natChars_cons m
      have hrun := takeDigits_run (natChars m) (natChars_digits m) rest h
      have hnotm : c ≠ '-' := (isDigitCh_spec c hc).2.1
      rw [intChars, hct, List.cons_append, parseInt, if_neg hnotm,
          ← List.cons_append, ← hct, hrun]
      have hne : (natChars m).isEmpty = false := by
        cases hnc : natChars m with
        | nil => exact absurd hnc (natChars_ne_nil m)
        | cons a b => rfl
      simp [hne, digitsToNat_natChars]
  | .negSucc m =>
      have hrun := takeDigits_run (natChars (m + 1)) (natChars_digits (m + 1)) rest h
      rw [intChars, List.cons_append, parseInt, if_pos rfl, hrun]
      have hne : (natChars (m + 1)).isEmpty = false := by
        cases hnc : natChars (m + 1) with
        | nil => exact absurd hnc (natChars_ne_nil (m + 1))
        | cons a b => rfl
      simp [hne, digitsToNat_natChars, Int.negSucc_eq]

theorem hexVal?_hexDigitCh (n : Nat) (h : n < 16) : hexVal? (hexDigitCh n) = some n := by
  interval_cases n <;> decide

/-- A short escape `\e` parses to the character it stands for. -/
theorem parseStrBody_shortEsc (e ch : Char) (he : unesc? e = some ch) (hu : e ≠ 'u')
    (rest : List Char) :
    parseStrBody ('\\' :: e :: rest) =
      match parseStrBody rest with
      | some (s, r1) => some (ch :: s, r1)
      | none => none := by
  rw [parseStrBody.eq_def]
  simp only []
  rw [if_neg (by decide : ¬('\\' = '"')), if_pos trivial, if_neg hu, he]

/-- A `\uXXXX` escape parses to the encoded character. -/
theorem parseStrBody_uEsc (a b c1 d : Char) (n : Nat) (hn : hex4? a b c1 d = some n)
    (rest : List Char) :
    parseStrBody ('\\' :: 'u' :: a :: b :: c1 :: d :: rest) =
      match parseStrBody rest with
      | some (s, r1) => some (Char.ofNat n :: s, r1)
      | none => none := by
  rw [parseStrBody.eq_def]
  simp only []
  rw [if_neg (by decide : ¬('\\' = '"')), if_pos trivial, if_pos trivial, hn]

/-- An unescaped character parses as itself. -/
theorem parseStrBody_raw (c : Char) (h1 : c ≠ '"') (h2 : c ≠ '\\') (rest : List Char) :
    parseStrBody (c :: rest) =
      match parseStrBody rest with
      | some (s, r1) => some (c :: s, r1)
      | none => none := by
  rw [parseStrBody.eq_def]
  simp only []
  rw [if_neg h1, if_neg h2]

/-- Parsing one escaped character undoes the escaping. -/
theorem parseStrBody_escape (c : Char) (rest : List Char) :
    parseStrBody (pyEscapeChar c ++ rest) =
      match parseStrBody rest with
      | some (s, r1) => some (c :: s, r1)
      | none => none := by
  rw [pyEscapeChar]
  by_cases h1 : c = '"'
  · subst h1; exact parseStrBody_shortEsc '"' '"' rfl (by decide) rest
  by_cases h2 : c = '\\'
  · subst h2
    simp only [if_neg (by decide : ¬('\\' = '"')), if_pos rfl]
    exact parseStrBody_shortEsc '\\' '\\' rfl (by decide) rest
  by_cases h3 : c = '\n'
  · subst h3
    simp only [if_neg (by decide : ¬('\n' = '"')), if_neg (by decide : ¬('\n' = '\\')),
               if_pos rfl]
    exact parseStrBody_shortEsc 'n' '\n' rfl (by decide) rest
  by_cases h4 : c = '\r'
  · subst h4
    simp only [if_neg (by decide : ¬('\r' = '"')), if_neg (by decide : ¬('\r' = '\\')),
               if_neg (by decide : ¬('\r' = '\n')), if_pos rfl]
    exact parseStrBody_shortEsc 'r' '\r' rfl (by decide) rest
  by_cases h5 : c = '\t'
  · subst h5
    simp only [if_neg (by decide : ¬('\t' = '"')), if_neg (by decide : ¬('\t' = '\\')),
               if_neg (by decide : ¬('\t' = '\n')), if_neg (by decide : ¬('\t' = '\r')),
               if_pos rfl]
    exact parseStrBody_shortEsc 't' '\t' rfl (by decide) rest
  by_cases h6 : c = '\x08'
  · subst h6
    simp only [if_neg (by decide : ¬('\x08' = '"')), if_neg (by decide : ¬('\x08' = '\\')),
               if_neg (by decide : ¬('\x08' = '\n')), if_neg (by decide : ¬('\x08' = '\r')),
               if_neg (by decide : ¬('\x08' = '\t')), if_pos rfl]
    exact parseStrBody_shortEsc 'b' '\x08' rfl (by decide) rest
  by_cases h7 : c = '\x0c'
  · subst h7
    simp only [if_neg (by decide : ¬('\x0c' = '"')), if_neg (by decide : ¬('\x0c' = '\\')),
               if_neg (by decide : ¬('\x0c' = '\n')), if_neg (by decide : ¬('\x0c' = '\r')),
               if_neg (by decide : ¬('\x0c' = '\t')), if_neg (by decide : ¬('\x0c' = '\x08')),
               if_pos rfl]
    exact parseStrBody_shortEsc 'f' '\x0c' rfl (by decide) rest
  by_cases h8 : c.toNat < 32
  · simp only [if_neg h1, if_neg h2, if_neg h3, if_neg h4, if_neg h5, if_neg h6,
               if_neg h7, if_pos h8, List.cons_append, List.nil_append]
    have hdiv : c.toNat / 16 < 16 := by omega
    have hmod : c.toNat % 16 < 16 := Nat.mod_lt _ (by omega)
    have hn : hex4? '0' '0' (hexDigitCh (c.toNat / 16)) (hexDigitCh (c.toNat % 16)) =
        some c.toNat := by
      simp [hex4?, (by decide : hexVal? '0' = some 0),
            hexVal?_hexDigitCh _ hdiv, hexVal?_hexDigitCh _ hmod]
      omega
    rw [parseStrBody_uEsc _ _ _ _ _ hn, Char.ofNat_toNat]
  · simp only [if_neg h1, if_neg h2, if_neg h3, if_neg h4, if_neg h5, if_neg h6,
               if_neg h7, if_neg h8, List.singleton_append]
    exact parseStrBody_raw c h1 h2 rest

/-- Parsing a whole escaped run recovers the characters up to the closing
quote. -/
theorem parseStrBody_enc (cs : List Char) : ∀ rest : List Char,
    parseStrBody (cs.flatMap pyEscapeChar ++ '"' :: rest) = some (cs, rest) := by
  induction cs with
  | nil =>
      intro rest
      simp only [List.flatMap_nil, List.nil_append]
      rw [parseStrBody.eq_def]
      simp only []
      rw [if_pos trivial]
  | cons c t ih =>
      intro rest
      rw [List.flatMap_cons, List.append_assoc, parseStrBody_escape, ih]

theorem parseStrBody_encStr (s : String) (rest : List Char) :
    parseStrBody (s.data.flatMap pyEscapeChar ++ '"' :: rest) = some (s.data, rest) :=
  parseStrBody_enc s.data rest

theorem skipWs_ws (c : Char) (h : isWsCh c = true) (cs : List Char) :
    skipWs (c :: cs) = skipWs cs := by
  simp [skipWs, h]

theorem skipWs_not (c : Char) (h : isWsCh c = false) (cs : List Char) :
    skipWs (c :: cs) = c :: cs := by
  simp [skipWs, h]

theorem skipWs_pad (d : Nat) (cs : List Char) : skipWs (pad d ++ cs) = skipWs cs := by
  induction d with
  | zero => rfl
  | succ n ih =>
      simp only [pad, List.replicate_succ, List.cons_append]
      rw [skipWs_ws ' ' (by decide)]
      simpa [pad] using ih

theorem skipWs_nl_pad (d : Nat) (cs : List Char) :
    skipWs ('\n' :: (pad d ++ cs)) = skipWs cs := by
  rw [skipWs_ws '\n' (by decide), skipWs_pad]

/-- Every serialized value begins with a non-whitespace character that closes
neither an array nor an object. -/
theorem encVal_head (d : Nat) (j : Json) :
    ∃ c t, encVal d j = c :: t ∧ isWsCh c = false ∧ c ≠ ']' ∧ c ≠ braceR := by
  cases j with
  | null => exact ⟨'n', _, rfl, by decide, by decide, by decide⟩
  | bool b =>
      cases b with
      | false => exact ⟨'f', _, rfl, by decide, by decide, by decide⟩
      | true => exact ⟨'t', _, rfl, by decide, by decide, by decide⟩
  | num n =>
      match n with
      | .ofNat m =>
          obtain ⟨c, t, hct, hc⟩ := natChars_cons m
          obtain ⟨hws, _, hbr, hbc, _⟩ := isDigitCh_spec c hc
          exact ⟨c, t, by simp [encVal, intChars, hct], hws, hbr, hbc⟩
      | .negSucc m =>
          exact ⟨'-', natChars (m + 1), by simp [encVal, intChars], by decide,
                 by decide, by decide⟩
  | str s =>
      exact ⟨'"', s.data.flatMap pyEscapeChar ++ ['"'],
             by simp [encVal, encStr], by decide, by decide, by decide⟩
  | arr es =>
      cases es with
      | nil => exact ⟨'[', _, rfl, by decide, by decide, by decide⟩
      | cons x xs => exact ⟨'[', _, rfl, by decide, by decide, by decide⟩
  | obj ms =>
      cases ms with
      | nil => exact ⟨braceL, _, rfl, by decide, by decide, by decide⟩
      | cons kv kvs => exact ⟨braceL, _, rfl, by decide, by decide, by decide⟩

theorem skipWs_encVal (d : Nat) (j : Json) (x : List Char) :
    skipWs (encVal d j ++ x) = encVal d j ++ x := by
  obtain ⟨c, t, hct, hws, _, _⟩ := encVal_head d j
  rw [hct, List.cons_append, skipWs_not c hws]

theorem encVal_length_pos (d : Nat) (j : Json) : 1 ≤ (encVal d j).length := by
  obtain ⟨c, t, hct, _, _, _⟩ := encVal_head d j
  simp [hct]

theorem encStr_length (s : String) : 2 ≤ (encStr s).length := by
  simp [encStr]

/-- `parseVal` looks only at the whitespace-normalized input. -/
theorem parseVal_congr (f : Nat) (cs cs' : List Char) (h : skipWs cs = skipWs cs') :
    parseVal f cs = parseVal f cs' := by
  cases f with
  | zero => rfl
  | succ f => rw [parseVal, parseVal, h]

theorem parseItems_congr (f : Nat) (cs cs' : List Char) (h : skipWs cs = skipWs cs') :
    parseItems f cs = parseItems f cs' := by
  cases f with
  | zero => rfl
  | succ f => rw [parseItems, parseItems, parseVal_congr f cs cs' h]

theorem parseFields_congr (f : Nat) (cs cs' : List Char) (h : skipWs cs = skipWs cs') :
    parseFields f cs = parseFields f cs' := by
  cases f with
  | zero => rfl
  | succ f => rw [parseFields, parseFields, h]

/-- An input that starts like a number dispatches to `parseInt`. -/
theorem parseVal_toInt (f : Nat) (c0 : Char) (t : List Char)
    (hws : isWsCh c0 = false) (hn : c0 ≠ 'n') (ht : c0 ≠ 't') (hlf : c0 ≠ 'f')
    (hq : c0 ≠ '"') (hbk : c0 ≠ '[') (hbc : c0 ≠ braceL) :
    parseVal (f + 1) (c0 :: t) =
      match parseInt (c0 :: t) with
      | some (n, r1) => some (.num n, r1)
      | none => none := by
  rw [parseVal, skipWs_not c0 hws]
  simp [hn, ht, hlf, hq, hbk, hbc]

/-- One step of the parser on an array opener. -/
theorem parseVal_arrStep (f : Nat) (r : List Char) :
    parseVal (f + 1) ('[' :: r) =
      match skipWs r with
      | [] => none
      | c1 :: r1 =>
          if c1 = ']' then some (.arr [], r1)
          else match parseItems f (c1 :: r1) with
               | some (vs, r2) => some (.arr vs, r2)
               | none => none := rfl

/-- One step of the parser on an object opener. -/
theorem parseVal_objStep (f : Nat) (r : List Char) :
    parseVal (f + 1) (braceL :: r) =
      match skipWs r with
      | c1 :: r1 =>
          if c1 = braceR then some (.obj [], r1)
          else match parseFields f (c1 :: r1) with
               | some (ms, r2) => some (.obj ms, r2)
               | none => none
      | [] => none := rfl

/-- One step of the parser on a string opener. -/
theorem parseVal_strStep (f : Nat) (r : List Char) :
    parseVal (f + 1) ('"' :: r) =
      match parseStrBody r with
      | some (s, r1) => some (.str (String.mk s), r1)
      | none => none := rfl

/-- A list headed by a non-digit cannot extend a number. -/
theorem numSafe_cons (c : Char) (h : isDigitCh c = false) (t : List Char) :
    numSafe (c :: t) = true := by
  simp [numSafe, h]

/-- One step of the item-list parser. -/
theorem parseItems_step (f : Nat) (cs : List Char) :
    parseItems (f + 1) cs =
      match parseVal f cs with
      | none => none
      | some (v, r) =>
          match skipWs r with
          | ',' :: r1 =>
              match parseItems f r1 with
              | some (vs, r2) => some (v :: vs, r2)
              | none => none
          | ']' :: r1 => some ([v], r1)
          | _ => none := rfl

mutual
/-- Reading serializer output reconstructs the value, leaving the rest. -/
theorem rt_val : ∀ (j : Json) (d fuel : Nat) (rest : List Char),
    (encVal d j).length < fuel → numSafe rest = true →
    parseVal fuel (encVal d j ++ rest) = some (j, rest)
  | .null, d, fuel, rest, hf, _ => by
      cases fuel with
      | zero => exact absurd hf (Nat.not_lt_zero _)
      | succ f => simp [encVal, parseVal, skipWs, isWsCh]
  | .bool b, d, fuel, rest, hf, _ => by
      cases fuel with
      | zero => exact absurd hf (Nat.not_lt_zero _)
      | succ f => cases b <;> simp [encVal, parseVal, skipWs, isWsCh]
  | .num n, d, fuel, rest, hf, hr => by
      cases fuel with
      | zero => exact absurd hf (Nat.not_lt_zero _)
      | succ f =>
          match n with
          | .ofNat m =>
              obtain ⟨c, tl, hct, hc⟩ := natChars_cons m
              obtain ⟨hws, _, _, _, hbcL, hhn, hht, hhf, hhq, hhbk⟩ := isDigitCh_spec c hc
              have harg : encVal d (.num (.ofNat m)) ++ rest = c :: (tl ++ rest) := by
                simp [encVal, intChars, hct]
              rw [harg, parseVal_toInt f c _ hws hhn hht hhf hhq hhbk hbcL,
                  ← List.cons_append, ← hct]
              have hpi : parseInt (natChars m ++ rest) = some ((.ofNat m : Int), rest) :=
                parseInt_intChars (.ofNat m) rest hr
              rw [hpi]
          | .negSucc m =>
              have harg : encVal d (.num (.negSucc m)) ++ rest
                  = '-' :: (natChars (m + 1) ++ rest) := by
                simp [encVal, intChars]
              rw [harg, parseVal_toInt f '-' _ (by decide) (by decide) (by decide)
                  (by decide) (by decide) (by decide) (by decide)]
              have hpi : parseInt ('-' :: (natChars (m + 1) ++ rest))
                  = some ((.negSucc m : Int), rest) := by
                have := parseInt_intChars (.negSucc m) rest hr
                simpa [intChars] using this
              rw [hpi]
  | .str s, d, fuel, rest, hf, _ => by
      cases fuel with
      | zero => exact absurd hf (Nat.not_lt_zero _)
      | succ f =>
          have harg : encVal d (.str s) ++ rest
              = '"' :: (s.data.flatMap pyEscapeChar ++ '"' :: rest) := by
            simp [encVal, encStr]
          rw [harg, parseVal_strStep, parseStrBody_encStr]
  | .arr [], d, fuel, rest, hf, _ => by
      cases fuel with
      | zero => exact absurd hf (Nat.not_lt_zero _)
      | succ f =>
          have harg : encVal d (.arr []) ++ rest = '[' :: (']' :: rest) := by
            simp [encVal]
          rw [harg, parseVal_arrStep, skipWs_not ']' (by decide)]
          simp
  | .arr (x :: xs), d, fuel, rest, hf, _ => by
      cases fuel with
      | zero => exact absurd hf (Nat.not_lt_zero _)
      | succ f =>
          obtain ⟨c, tl, hxc, hcws, hcbr, _⟩ := encVal_head (d + 2) x
          have harg : encVal d (.arr (x :: xs)) ++ rest
              = '[' :: ('\n' :: (pad (d + 2) ++ (encVal (d + 2) x ++
                  (encItems (d + 2) xs ++ ('\n' :: (pad d ++ (']' :: rest))))))) := by
            simp [encVal]
          have hlen : (encVal d (.arr (x :: xs))).length
              = (encVal (d + 2) x).length + ((encItems (d + 2) xs).length +
                  ((d + 2) + (d + 4))) := by
            simp [encVal, pad, List.length_append]
            omega
          have hfuel : (encVal (d + 2) x).length + (encItems (d + 2) xs).length + 1 < f := by
            omega
          have key := rt_items x xs (d + 2) d f rest hfuel
          rw [harg, parseVal_arrStep]
          have hwsr : skipWs ('\n' :: (pad (d + 2) ++ (encVal (d + 2) x ++
              (encItems (d + 2) xs ++ ('\n' :: (pad d ++ (']' :: rest)))))))
              = c :: (tl ++ (encItems (d + 2) xs ++ ('\n' :: (pad d ++ (']' :: rest))))) := by
            rw [skipWs_nl_pad, hxc, List.cons_append]
            exact skipWs_not c hcws _
          rw [hwsr]
          simp only [if_neg hcbr]
          rw [show c :: (tl ++ (encItems (d + 2) xs ++ ('\n' :: (pad d ++ (']' :: rest)))))
                = encVal (d + 2) x ++ (encItems (d + 2) xs ++ ('\n' :: (pad d ++ (']' :: rest))))
            from by rw [hxc, List.cons_append], key]
  | .obj [], d, fuel, rest, hf, _ => by
      cases fuel with
      | zero => exact absurd hf (Nat.not_lt_zero _)
      | succ f =>
          have harg : encVal d (.obj []) ++ rest = braceL :: (braceR :: rest) := by
            simp [encVal]
          rw [harg, parseVal_objStep, skipWs_not braceR (by decide)]
          simp
  | .obj ((k, v) :: kvs), d, fuel, rest, hf, _ => by
      cases fuel with
      | zero => exact absurd hf (Nat.not_lt_zero _)
      | succ f =>
          have harg : encVal d (.obj ((k, v) :: kvs)) ++ rest
              = braceL :: ('\n' :: (pad (d + 2) ++ (encField (d + 2) (k, v) ++
                  (encFields (d + 2) kvs ++ ('\n' :: (pad d ++ (braceR :: rest))))))) := by
            simp [encVal]
          have hlen : (encVal d (.obj ((k, v) :: kvs))).length
              = (encField (d + 2) (k, v)).length + ((encFields (d + 2) kvs).length +
                  ((d + 2) + (d + 4))) := by
            simp [encVal, pad, List.length_append]
            omega
          have hfuel : (encField (d + 2) (k, v)).length +
              (encFields (d + 2) kvs).length + 1 < f := by
            omega
          have key := rt_fields (k, v) kvs (d + 2) d f rest hfuel
          have hkey : encField (d + 2) (k, v) ++ (encFields (d + 2) kvs ++
              ('\n' :: (pad d ++ (braceR :: rest))))
              = '"' :: ((k.data.flatMap pyEscapeChar ++ ['"']) ++
                  (':' :: (' ' :: (encVal (d + 2) v ++ (encFields (d + 2) kvs ++
                    ('\n' :: (pad d ++ (braceR :: rest)))))))) := by
            simp [encField, encStr]
          rw [harg, parseVal_objStep]
          have hwsr : skipWs ('\n' :: (pad (d + 2) ++ (encField (d + 2) (k, v) ++
              (encFields (d + 2) kvs ++ ('\n' :: (pad d ++ (braceR :: rest)))))))
              = '"' :: ((k.data.flatMap pyEscapeChar ++ ['"']) ++
                  (':' :: (' ' :: (encVal (d + 2) v ++ (encFields (d + 2) kvs ++
                    ('\n' :: (pad d ++ (braceR :: rest)))))))) := by
            rw [skipWs_nl_pad, hkey]
            exact skipWs_not '"' (by decide) _
          rw [hwsr]
          simp only [if_neg (by decide : ¬(('"' : Char) = braceR))]
          rw [show ('"' : Char) :: ((k.data.flatMap pyEscapeChar ++ ['"']) ++
                (':' :: (' ' :: (encVal (d + 2) v ++ (encFields (d + 2) kvs ++
                  ('\n' :: (pad d ++ (braceR :: rest))))))))
              = encField (d + 2) (k, v) ++ (encFields (d + 2) kvs ++
                  ('\n' :: (pad d ++ (braceR :: rest))))
            from hkey.symm, key]
  termination_by j => sizeOf j
  decreasing_by all_goals (simp_wf; omega)

/-- Reading a serialized non-empty item list through the closing `]`. -/
theorem rt_items : ∀ (x : Json) (xs : List Json) (dc dp fuel : Nat) (rest : List Char),
    (encVal dc x).length + (encItems dc xs).length + 1 < fuel →
    parseItems fuel (encVal dc x ++ (encItems dc xs ++ ('\n' :: (pad dp ++ (']' :: rest)))))
      = some (x :: xs, rest)
  | x, [], dc, dp, fuel, rest, hfl => by
      cases fuel with
      | zero => exact absurd hfl (Nat.not_lt_zero _)
      | succ f =>
          have hv := rt_val x dc f ('\n' :: (pad dp ++ (']' :: rest)))
            (by omega) (numSafe_cons '\n' (by decide) _)
          rw [parseItems_step]
          simp only [encItems, List.nil_append]
          rw [hv]
          simp only []
          rw [skipWs_nl_pad, skipWs_not ']' (by decide)]
          rfl
  | x, x2 :: xs, dc, dp, fuel, rest, hfl => by
      cases fuel with
      | zero => exact absurd hfl (Nat.not_lt_zero _)
      | succ f =>
          have hlen2 : (encItems dc (x2 :: xs)).length
              = (encVal dc x2).length + ((encItems dc xs).length + (dc + 2)) := by
            simp [encItems, pad, List.length_append]
            omega
          have hx1 : 1 ≤ (encVal dc x).length := encVal_length_pos dc x
          have hsep : encItems dc (x2 :: xs) ++ ('\n' :: (pad dp ++ (']' :: rest)))
              = ',' :: ('\n' :: (pad dc ++ (encVal dc x2 ++ (encItems dc xs ++
                  ('\n' :: (pad dp ++ (']' :: rest))))))) := by
            simp [encItems]
          have hv := rt_val x dc f
            (encItems dc (x2 :: xs) ++ ('\n' :: (pad dp ++ (']' :: rest))))
            (by omega) (by rw [hsep]; exact numSafe_cons ',' (by decide) _)
          have key := rt_items x2 xs dc dp f rest (by omega)
          rw [parseItems_step, hv]
          simp only []
          rw [hsep, skipWs_not ',' (by decide)]
          simp only []
          have hnext : parseItems f ('\n' :: (pad dc ++ (encVal dc x2 ++ (encItems dc xs ++
              ('\n' :: (pad dp ++ (']' :: rest)))))))
              = parseItems f (encVal dc x2 ++ (encItems dc xs ++
                  ('\n' :: (pad dp ++ (']' :: rest))))) := by
            apply parseItems_congr
            rw [skipWs_nl_pad]
          rw [hnext, key]
  termination_by x xs => sizeOf x + sizeOf xs

/-- Reading a serialized non-empty member list through the closing brace. -/
theorem rt_fields : ∀ (kv : String × Json) (kvs : List (String × Json))
    (dc dp fuel : Nat) (rest : List Char),
    (encField dc kv).length + (encFields dc kvs).length + 1 < fuel →
    parseFields fuel (encField dc kv ++ (encFields dc kvs ++
        ('\n' :: (pad dp ++ (braceR :: rest)))))
      = some (kv :: kvs, rest)
  | (k, v), kvs, dc, dp, fuel, rest, hfl => by
      cases fuel with
      | zero => exact absurd hfl (Nat.not_lt_zero _)
      | succ f =>
          have hstr : 2 ≤ (encStr k).length := encStr_length k
          have hflen : (encField dc (k, v)).length
              = (encStr k).length + ((encVal dc v).length + 2) := by
            simp [encField, List.length_append]
          have hkey : encField dc (k, v) ++ (encFields dc kvs ++
              ('\n' :: (pad dp ++ (braceR :: rest))))
              = '"' :: (k.data.flatMap pyEscapeChar ++ '"' ::
                  (':' :: (' ' :: (encVal dc v ++ (encFields dc kvs ++
                    ('\n' :: (pad dp ++ (braceR :: rest)))))))) := by
            simp [encField, encStr]
          rw [hkey, parseFields, skipWs_not '"' (by decide)]
          simp only []
          rw [parseStrBody_encStr k]
          simp only []
          rw [skipWs_not ':' (by decide)]
          simp only []
          have hv0 : parseVal f (' ' :: (encVal dc v ++ (encFields dc kvs ++
              ('\n' :: (pad dp ++ (braceR :: rest))))))
              = parseVal f (encVal dc v ++ (encFields dc kvs ++
                  ('\n' :: (pad dp ++ (braceR :: rest))))) := by
            apply parseVal_congr
            rw [skipWs_ws ' ' (by decide)]
          cases kvs with
          | nil =>
              have hv := rt_val v dc f ('\n' :: (pad dp ++ (braceR :: rest)))
                (by omega) (numSafe_cons '\n' (by decide) _)
              rw [hv0]
              simp only [encFields, List.nil_append]
              rw [hv]
              simp only []
              rw [skipWs_nl_pad, skipWs_not braceR (by decide)]
              rfl
          | cons kv2 kvs2 =>
              have hflen2 : (encFields dc (kv2 :: kvs2)).length
                  = (encField dc kv2).length + ((encFields dc kvs2).length + (dc + 2)) := by
                simp [encFields, pad, List.length_append]
                omega
              have hsep : encFields dc (kv2 :: kvs2) ++ ('\n' :: (pad dp ++ (braceR :: rest)))
                  = ',' :: ('\n' :: (pad dc ++ (encField dc kv2 ++ (encFields dc kvs2 ++
                      ('\n' :: (pad dp ++ (braceR :: rest))))))) := by
                simp [encFields]
              have hv := rt_val v dc f
                (encFields dc (kv2 :: kvs2) ++ ('\n' :: (pad dp ++ (braceR :: rest))))
                (by omega) (by rw [hsep]; exact numSafe_cons ',' (by decide) _)
              have key := rt_fields kv2 kvs2 dc dp f rest (by omega)
              rw [hv0, hv]
              simp only []
              rw [hsep, skipWs_not ',' (by decide)]
              simp only []
              have hnext : parseFields f ('\n' :: (pad dc ++ (encField dc kv2 ++
                  (encFields dc kvs2 ++ ('\n' :: (pad dp ++ (braceR :: rest)))))))
                  = parseFields f (encField dc kv2 ++ (encFields dc kvs2 ++
                      ('\n' :: (pad dp ++ (braceR :: rest))))) := by
                apply parseFields_congr
                rw [skipWs_nl_pad]
              rw [hnext, key]
  termination_by kv kvs => sizeOf kv + sizeOf kvs
end

/-- The CPython `json` external collaborator round-trips the pipeline's
files: reading back a dumped value yields it exactly. -/
theorem json_load_dump (j : Json) : json_load (json_dump j) = some j := by
  have hv := rt_val j 0 ((encVal 0 j).length + 1) [] (by omega) (by decide)
  rw [List.append_nil] at hv
  rw [json_load, json_dump]
  simp only []
  rw [hv]
  rfl

/-!
## Proofs — the record ⇄ JSON codec round-trip
-/

theorem optMapList_map_inv {α β : Type} (f : β → Option α) (g : α → β)
    (h : ∀ x, f (g x) = some x) (l : List α) : optMapList f (l.map g) = some l := by
  induction l with
  | nil => rfl
  | cons a t ih => simp [optMapList, h, ih]

theorem position_rt (p : PptPosition) : positionFromJson (positionToJson p) = some p := by
  simp [positionToJson, positionFromJson, jget, jgetNum]

theorem run_rt (r : RunInfo) : runFromJson (runToJson r) = some r := by
  obtain ⟨t, fn, fs, b, i, u, col⟩ := r
  cases fn <;> cases fs <;> cases b <;> cases i <;> cases u <;> cases col <;>
    simp [runToJson, runFromJson, jget, jgetStr, jgetNum, jgetBool, nullable]

theorem para_rt (p : ParaInfo) : paraFromJson (paraToJson p) = some p := by
  obtain ⟨t, al, runs⟩ := p
  have hruns := optMapList_map_inv runFromJson runToJson run_rt runs
  cases al <;>
    simp [paraToJson, paraFromJson, jget, jgetStr, nullable, hruns]

theorem style_rt (s : StyleInfo) : styleFromJson (styleToJson s) = some s := by
  obtain ⟨ps⟩ := s
  have hps := optMapList_map_inv paraFromJson paraToJson para_rt ps
  simp [styleToJson, styleFromJson, jget, hps]

theorem fragment_rt (t : TextFragment) : fragmentFromJson (fragmentToJson t) = some t := by
  obtain ⟨c, oc, pos, z, st⟩ := t
  cases oc <;> cases pos <;> cases z <;> cases st <;>
    simp [fragmentToJson, fragmentFromJson, optEntry, jget, jgetStr, jgetNum,
          position_rt, style_rt]

theorem origSize_rt (s : OrigSize) : origSizeFromJson (origSizeToJson s) = some s := by
  obtain ⟨w, h⟩ := s
  cases w <;> cases h <;>
    simp [origSizeToJson, origSizeFromJson, jget, jgetNum, nullable]

theorem image_rt (i : ImageRef) : imageFromJson (imageToJson i) = some i := by
  obtain ⟨fn, pos, z, osz⟩ := i
  cases pos <;> cases z <;> cases osz <;>
    simp [imageToJson, imageFromJson, optEntry, jget, jgetStr, jgetNum,
          position_rt, origSize_rt]

theorem slide_rt (s : SlideRecord) : slideFromJson (slideToJson s) = some s := by
  obtain ⟨n, w, h, ts, is⟩ := s
  have hts := optMapList_map_inv fragmentFromJson fragmentToJson fragment_rt ts
  have his := optMapList_map_inv imageFromJson imageToJson image_rt is
  cases w <;> cases h <;>
    simp [slideToJson, slideFromJson, optEntry, jget, jgetNum, hts, his]

theorem slides_rt (rs : List SlideRecord) :
    slidesFromJson (slidesToJson rs) = some rs := by
  simp [slidesToJson, slidesFromJson,
        optMapList_map_inv slideFromJson slideToJson slide_rt rs]

/-!
## Proofs — structured-mode reconciliation
-/

theorem fillSlides_fst (m : TransMap) (slides : List SlideRecord) :
    (fillSlides m slides).1 = slides.map (fun s => (fillSlide m s).1) := by
  induction slides with
  | nil => rfl
  | cons s t ih => simp [fillSlides, ih]

theorem fillSlides_length (m : TransMap) (slides : List SlideRecord) :
    (fillSlides m slides).1.length = slides.length := by
  rw [fillSlides_fst]
  exact List.length_map _ _

theorem fillSlide_noEntry (m : TransMap) (s : SlideRecord)
    (h : lookupMap m s.slide_number = none) : (fillSlide m s).1 = s := by
  simp [fillSlide, h]

theorem fillTexts_fst_len (blocks : List String) :
    ∀ (ts : List TextFragment) (i : Nat), ((fillTexts blocks ts i).1).length = ts.length := by
  intro ts
  induction ts with
  | nil => intro i; rfl
  | cons t rest ih =>
      intro i
      simp only [fillTexts]
      split <;> simp [ih]

theorem fillTexts_fst_get (blocks : List String) :
    ∀ (ts : List TextFragment) (i j : Nat),
      ((fillTexts blocks ts i).1)[j]? =
        (ts[j]?).map (fun t =>
          if i + j < blocks.length then { t with content := blocks.getD (i + j) "" } else t) := by
  intro ts
  induction ts with
  | nil => intro i j; simp [fillTexts]
  | cons t rest ih =>
      intro i j
      cases j with
      | zero =>
          simp only [fillTexts]
          split <;> rename_i hlt <;> simp [hlt]
      | succ j =>
          simp only [fillTexts]
          have hrec := ih (i + 1) j
          split <;>
            simpa [Nat.add_assoc, Nat.add_comm 1 j, Nat.add_left_comm] using hrec

theorem fillSlide_shell (m : TransMap) (s : SlideRecord) :
    sameShell (fillSlide m s).1 s := by
  cases h : lookupMap m s.slide_number <;> simp [fillSlide, h, sameShell]

theorem fillSlide_texts_len (m : TransMap) (s : SlideRecord) :
    ((fillSlide m s).1).texts.length = s.texts.length := by
  cases h : lookupMap m s.slide_number <;> simp [fillSlide, h, fillTexts_fst_len]

theorem fillSlide_keep (m : TransMap) (s : SlideRecord) (blocks : List String) (j : Nat)
    (h : lookupMap m s.slide_number = some blocks) (hj : blocks.length ≤ j) :
    ((fillSlide m s).1).texts[j]? = s.texts[j]? := by
  simp only [fillSlide, h]
  rw [fillTexts_fst_get]
  cases s.texts[j]? with
  | none => rfl
  | some t => simp [Nat.not_lt.mpr hj]

theorem fillSlide_repl (m : TransMap) (s : SlideRecord) (blocks : List String) (j : Nat)
    (h : lookupMap m s.slide_number = some blocks) (hj : j < blocks.length) :
    ((fillSlide m s).1).texts[j]? =
      (s.texts[j]?).map (fun t => { t with content := blocks.getD j "" }) := by
  simp only [fillSlide, h]
  rw [fillTexts_fst_get]
  cases s.texts[j]? with
  | none => rfl
  | some t => simp [hj]

theorem fillSlide_samePlace (m : TransMap) (s : SlideRecord) (j : Nat)
    (t t' : TextFragment) (h1 : s.texts[j]? = some t)
    (h2 : ((fillSlide m s).1).texts[j]? = some t') : samePlace t' t := by
  cases h : lookupMap m s.slide_number with
  | none =>
      rw [fillSlide_noEntry m s h, h1] at h2
      cases h2
      exact ⟨rfl, rfl, rfl, rfl⟩
  | some blocks =>
      by_cases hj : j < blocks.length
      · rw [fillSlide_repl m s blocks j h hj, h1] at h2
        cases h2
        exact ⟨rfl, rfl, rfl, rfl⟩
      · rw [fillSlide_keep m s blocks j h (Nat.le_of_not_lt hj), h1] at h2
        cases h2
        exact ⟨rfl, rfl, rfl, rfl⟩

theorem fillSlides_emptyMap (slides : List SlideRecord) :
    (fillSlides [] slides).1 = slides := by
  rw [fillSlides_fst]
  have h : ∀ s ∈ slides, (fillSlide [] s).1 = s := fun s _ => fillSlide_noEntry [] s rfl
  rw [List.map_congr_left h]
  exact List.map_id slides

/-!
## Proofs — flat-mode reconciliation
-/

theorem samePlace_refl (t : TextFragment) : samePlace t t := ⟨rfl, rfl, rfl, rfl⟩

theorem samePlace_trans {a b c : TextFragment} (h1 : samePlace a b) (h2 : samePlace b c) :
    samePlace a c :=
  ⟨h1.1.trans h2.1, h1.2.1.trans h2.2.1, h1.2.2.1.trans h2.2.2.1, h1.2.2.2.trans h2.2.2.2⟩

theorem sameShell_refl (s : SlideRecord) : sameShell s s := ⟨rfl, rfl, rfl, rfl⟩

theorem sameShell_trans {a b c : SlideRecord} (h1 : sameShell a b) (h2 : sameShell b c) :
    sameShell a c :=
  ⟨h1.1.trans h2.1, h1.2.1.trans h2.2.1, h1.2.2.1.trans h2.2.2.1, h1.2.2.2.trans h2.2.2.2⟩

theorem contentOnly_refl (s : SlideRecord) : contentOnly s s := by
  refine ⟨sameShell_refl s, rfl, ?_⟩
  intro j t t' h1 h2
  rw [h1] at h2
  cases h2
  exact samePlace_refl t

theorem contentOnly_trans {a b c : SlideRecord} (h1 : contentOnly a b)
    (h2 : contentOnly b c) : contentOnly a c := by
  refine ⟨sameShell_trans h1.1 h2.1, h1.2.1.trans h2.2.1, ?_⟩
  intro j t t' ha hc
  have hl := h1.2.1
  have hja : j < a.texts.length := by
    by_contra hge
    rw [List.getElem?_eq_none (by omega)] at ha
    cases ha
  have hj : j < b.texts.length := by omega
  have hu : b.texts[j]? = some b.texts[j] := List.getElem?_eq_getElem hj
  exact samePlace_trans (h1.2.2 j t _ ha hu) (h2.2.2 j _ t' hu hc)

theorem setFragContent_get (ts : List TextFragment) (ti : Nat) (c : String) :
    ∀ j, (setFragContent ts ti c)[j]? =
      (ts[j]?).map (fun t => if j = ti then { t with content := c } else t) := by
  induction ts generalizing ti with
  | nil => intro j; simp [setFragContent]
  | cons t rest ih =>
      intro j
      cases ti with
      | zero =>
          cases j with
          | zero => simp [setFragContent]
          | succ j => simp [setFragContent]
      | succ ti =>
          cases j with
          | zero => simp [setFragContent]
          | succ j => simp [setFragContent, ih ti j]

theorem setFragContent_length (ts : List TextFragment) (ti : Nat) (c : String) :
    (setFragContent ts ti c).length = ts.length := by
  induction ts generalizing ti with
  | nil => rfl
  | cons t rest ih =>
      cases ti with
      | zero => simp [setFragContent]
      | succ ti => simp [setFragContent, ih ti]

theorem setContent_get (s : List SlideRecord) (a b : Nat) (c : String) :
    ∀ i, (setContent s a b c)[i]? =
      (s[i]?).map (fun sl =>
        if i = a then { sl with texts := setFragContent sl.texts b c } else sl) := by
  induction s generalizing a with
  | nil => intro i; simp [setContent]
  | cons sl rest ih =>
      intro i
      cases a with
      | zero =>
          cases i with
          | zero => simp [setContent]
          | succ i => simp [setContent]
      | succ a =>
          cases i with
          | zero => simp [setContent]
          | succ i => simp [setContent, ih a i]

theorem setContent_length (s : List SlideRecord) (a b : Nat) (c : String) :
    (setContent s a b c).length = s.length := by
  induction s generalizing a with
  | nil => rfl
  | cons sl rest ih =>
      cases a with
      | zero => simp [setContent]
      | succ a => simp [setContent, ih a]

theorem fragAt_setContent_same (s : List SlideRecord) (a b : Nat) (c : String) :
    fragAt (setContent s a b c) (a, b) =
      (fragAt s (a, b)).map (fun t => { t with content := c }) := by
  simp only [fragAt, setContent_get]
  cases s[a]? with
  | none => rfl
  | some sl => simp [setFragContent_get]

theorem fragAt_setContent_ne (s : List SlideRecord) (a b : Nat) (c : String)
    (q : Nat × Nat) (h : q ≠ (a, b)) :
    fragAt (setContent s a b c) q = fragAt s q := by
  obtain ⟨qa, qb⟩ := q
  simp only [fragAt, setContent_get]
  cases s[qa]? with
  | none => rfl
  | some sl =>
      by_cases ha : qa = a
      · subst ha
        have hb : qb ≠ b := fun hb => h (by rw [hb])
        simp [setFragContent_get, hb]
      · simp [ha]

theorem setContent_contentOnly (s : List SlideRecord) (a b : Nat) (c : String) (i : Nat) :
    ((setContent s a b c)[i]? = none ∧ s[i]? = none) ∨
    ∃ x y, (setContent s a b c)[i]? = some x ∧ s[i]? = some y ∧ contentOnly x y := by
  rw [setContent_get]
  cases hs : s[i]? with
  | none => exact Or.inl ⟨rfl, rfl⟩
  | some sl =>
      refine Or.inr ⟨_, sl, rfl, rfl, ?_⟩
      by_cases hi : i = a
      · simp only [if_pos hi]
        refine ⟨⟨rfl, rfl, rfl, rfl⟩, by simp [setFragContent_length], ?_⟩
        intro j t t' h1 h2
        simp only [setFragContent_get, h2] at h1
        by_cases hj : j = b
        · simp [hj] at h1
          cases h1
          exact ⟨rfl, rfl, rfl, rfl⟩
        · simp [hj] at h1
          cases h1
          exact ⟨rfl, rfl, rfl, rfl⟩
      · simp only [if_neg hi]
        exact contentOnly_refl sl

theorem loopIdx_eq_mod (j0 n : Nat) (h0 : 0 < n) (h : j0 ≤ n) :
    (if j0 ≥ n then 0 else j0) = j0 % n := by
  by_cases hge : j0 ≥ n
  · have heq : j0 = n := le_antisymm h hge
    subst heq
    simp [Nat.mod_self]
  · rw [if_neg hge, Nat.mod_eq_of_lt (by omega)]

theorem assignLoop_notin (jps : List String) :
    ∀ (ps : List (Nat × Nat)) (s : List SlideRecord) (j0 : Nat) (q : Nat × Nat),
      q ∉ ps → fragAt (assignLoop jps s ps j0).1 q = fragAt s q := by
  intro ps
  induction ps with
  | nil => intro s j0 q _; rfl
  | cons p rest ih =>
      intro s j0 q hq
      obtain ⟨a, b⟩ := p
      rw [assignLoop]
      rw [ih _ _ q (fun h => hq (List.mem_cons_of_mem _ h))]
      exact fragAt_setContent_ne _ _ _ _ q (fun h => hq (h ▸ List.mem_cons_self _ _))

theorem assignLoop_nth (jps : List String) (hn : 0 < jps.length) :
    ∀ (ps : List (Nat × Nat)) (s : List SlideRecord) (j0 i : Nat),
      ps.Nodup → j0 ≤ jps.length → (hi : i < ps.length) →
      fragAt (assignLoop jps s ps j0).1 ps[i] =
        (fragAt s ps[i]).map (fun t =>
          { t with content := jps.getD ((j0 % jps.length + i) % jps.length) "" }) := by
  intro ps
  induction ps with
  | nil => intro s j0 i _ _ hi; exact absurd hi (Nat.not_lt_zero i)
  | cons p rest ih =>
      intro s j0 i hnd hj hi
      obtain ⟨a, b⟩ := p
      have hhead : (a, b) ∉ rest := (List.nodup_cons.mp hnd).1
      rw [assignLoop]
      rw [loopIdx_eq_mod j0 jps.length hn hj]
      cases i with
      | zero =>
          simp only [List.getElem_cons_zero]
          rw [assignLoop_notin jps rest _ _ (a, b) hhead, fragAt_setContent_same]
          rw [Nat.add_zero, Nat.mod_mod_of_dvd _ (dvd_refl _)]
      | succ i =>
          simp only [List.getElem_cons_succ]
          have hnd' := (List.nodup_cons.mp hnd).2
          have hi' : i < rest.length := by
            simp only [List.length_cons] at hi
            omega
          have hmod : j0 % jps.length < jps.length := Nat.mod_lt _ hn
          have hne : rest[i] ≠ (a, b) := by
            intro h
            exact hhead (h ▸ rest.getElem_mem hi')
          rw [ih _ (j0 % jps.length + 1) i hnd' (by omega) hi']
          rw [fragAt_setContent_ne _ _ _ _ _ hne]
          have hidx : ((j0 % jps.length + 1) % jps.length + i) % jps.length
              = (j0 % jps.length + (i + 1)) % jps.length := by
            rw [Nat.mod_add_mod, Nat.add_assoc, Nat.add_comm 1 i]
          rw [hidx]

theorem assignLoop_snd (jps : List String) (hn : 0 < jps.length) :
    ∀ (ps : List (Nat × Nat)) (s : List SlideRecord) (j0 : Nat),
      ps ≠ [] → j0 ≤ jps.length →
      (assignLoop jps s ps j0).2 =
        ((j0 % jps.length + (ps.length - 1)) % jps.length) + 1 := by
  intro ps
  induction ps with
  | nil => intro s j0 h _; cases h rfl
  | cons p rest ih =>
      intro s j0 _ hj
      obtain ⟨a, b⟩ := p
      rw [assignLoop]
      rw [loopIdx_eq_mod j0 jps.length hn hj]
      have hmod : j0 % jps.length < jps.length := Nat.mod_lt _ hn
      cases hrest : rest with
      | nil =>
          show j0 % jps.length + 1
              = (j0 % jps.length + ([(a, b)].length - 1)) % jps.length + 1
          simp only [List.length_singleton, Nat.sub_self, Nat.add_zero]
          rw [Nat.mod_eq_of_lt hmod]
      | cons r2 rs =>
          rw [← hrest]
          rw [ih _ (j0 % jps.length + 1) (by rw [hrest]; exact List.cons_ne_nil r2 rs)
              (by omega)]
          have hlen : 1 ≤ rest.length := by
            rw [hrest]
            simp
          have hidx : ((j0 % jps.length + 1) % jps.length + (rest.length - 1)) % jps.length
              = (j0 % jps.length + ((a, b) :: rest).length.pred) % jps.length := by
            rw [Nat.mod_add_mod]
            congr 1
            simp only [List.length_cons, Nat.pred_succ]
            omega
          rw [hidx]
          rfl

theorem assignLoop_length (jps : List String) :
    ∀ (ps : List (Nat × Nat)) (s : List SlideRecord) (j0 : Nat),
      (assignLoop jps s ps j0).1.length = s.length := by
  intro ps
  induction ps with
  | nil => intro s j0; rfl
  | cons p rest ih =>
      intro s j0
      obtain ⟨a, b⟩ := p
      rw [assignLoop]
      rw [ih, setContent_length]

theorem assignLoop_contentOnly (jps : List String) :
    ∀ (ps : List (Nat × Nat)) (s : List SlideRecord) (j0 i : Nat),
      ((assignLoop jps s ps j0).1[i]? = none ∧ s[i]? = none) ∨
      ∃ x y, (assignLoop jps s ps j0).1[i]? = some x ∧ s[i]? = some y ∧ contentOnly x y := by
  intro ps
  induction ps with
  | nil =>
      intro s j0 i
      cases hs : s[i]? with
      | none => exact Or.inl ⟨hs, rfl⟩
      | some sl => exact Or.inr ⟨sl, sl, hs, rfl, contentOnly_refl sl⟩
  | cons p rest ih =>
      intro s j0 i
      obtain ⟨a, b⟩ := p
      rw [assignLoop]
      rcases ih (setContent s a b (jps.getD (if j0 ≥ jps.length then 0 else j0) "")) _ i with
        ⟨h1, h2⟩ | ⟨x, y, h1, h2, hxy⟩
      · rcases setContent_contentOnly s a b _ i with ⟨h3, h4⟩ | ⟨u, v, h3, h4, _⟩
        · exact Or.inl ⟨h1, h4⟩
        · rw [h2] at h3
          cases h3
      · rcases setContent_contentOnly s a b
          (jps.getD (if j0 ≥ jps.length then 0 else j0) "") i with
          ⟨h3, h4⟩ | ⟨u, v, h3, h4, huv⟩
        · rw [h3] at h2
          cases h2
        · rw [h3] at h2
          cases h2
          exact Or.inr ⟨x, v, h1, h4, contentOnly_trans hxy huv⟩

theorem totalFrags_setContent (s : List SlideRecord) (a b : Nat) (c : String) :
    totalFrags (setContent s a b c) = totalFrags s := by
  induction s generalizing a with
  | nil => rfl
  | cons sl rest ih =>
      cases a with
      | zero => simp [setContent, totalFrags, setFragContent_length]
      | succ a =>
          simp only [setContent, totalFrags, List.map_cons, List.sum_cons]
          have := ih a
          simp only [totalFrags] at this
          rw [this]

theorem totalFrags_assignLoop (jps : List String) :
    ∀ (ps : List (Nat × Nat)) (s : List SlideRecord) (j0 : Nat),
      totalFrags (assignLoop jps s ps j0).1 = totalFrags s := by
  intro ps
  induction ps with
  | nil => intro s j0; rfl
  | cons p rest ih =>
      intro s j0
      obtain ⟨a, b⟩ := p
      rw [assignLoop]
      rw [ih, totalFrags_setContent]

theorem mem_textPositions (si : Nat) (ts : List TextFragment) :
    ∀ (ti : Nat) (p : Nat × Nat),
      p ∈ textPositions si ts ti ↔
        (p.1 = si ∧ ∃ b, (∃ t, ts[b]? = some t ∧ hasContent t = true) ∧ p.2 = ti + b) := by
  induction ts with
  | nil => intro ti p; simp [textPositions]
  | cons t rest ih =>
      intro ti p
      obtain ⟨p1, p2⟩ := p
      simp only [textPositions, List.mem_append]
      constructor
      · intro hmem
        rcases hmem with hp | hp
        · by_cases hc : hasContent t
          · simp only [hc, if_true, List.mem_singleton] at hp
            cases hp
            exact ⟨rfl, 0, ⟨t, by simp, hc⟩, by omega⟩
          · simp [hc] at hp
        · obtain ⟨h1, b, ⟨u, hu, hcu⟩, h2⟩ := (ih (ti + 1) (p1, p2)).mp hp
          refine ⟨h1, b + 1, ⟨u, by simpa using hu, hcu⟩, by omega⟩
      · rintro ⟨h1, b, ⟨u, hu, hcu⟩, h2⟩
        cases b with
        | zero =>
            left
            simp only [List.getElem?_cons_zero] at hu
            cases hu
            simp [hcu, h1, h2]
        | succ b =>
            right
            refine (ih (ti + 1) (p1, p2)).mpr ⟨h1, b, ⟨u, by simpa using hu, hcu⟩, ?_⟩
            simp only []
            omega

theorem mem_positionsAux (slides : List SlideRecord) :
    ∀ (si : Nat) (p : Nat × Nat),
      p ∈ positionsAux slides si ↔
        (∃ a sl, slides[a]? = some sl ∧ p.1 = si + a ∧
          ∃ t, sl.texts[p.2]? = some t ∧ hasContent t = true) := by
  induction slides with
  | nil => intro si p; simp [positionsAux]
  | cons sl rest ih =>
      intro si p
      obtain ⟨p1, p2⟩ := p
      simp only [positionsAux, List.mem_append, mem_textPositions, ih]
      constructor
      · intro hmem
        rcases hmem with ⟨h1, b, ⟨t, ht, hc⟩, h2⟩ | ⟨a, sl', h1, h2, t, ht, hc⟩
        · subst h2
          exact ⟨0, sl, by simp, by omega, t, by simpa using ht, hc⟩
        · exact ⟨a + 1, sl', by simpa using h1, by omega, t, ht, hc⟩
      · rintro ⟨a, sl', h1, h2, t, ht, hc⟩
        cases a with
        | zero =>
            left
            simp only [List.getElem?_cons_zero] at h1
            cases h1
            exact ⟨by omega, p2, ⟨t, ht, hc⟩, by omega⟩
        | succ a =>
            right
            exact ⟨a, sl', by simpa using h1, by omega, t, ht, hc⟩

theorem mem_positionsOf (slides : List SlideRecord) (p : Nat × Nat) :
    p ∈ positionsOf slides ↔ ∃ t, fragAt slides p = some t ∧ hasContent t = true := by
  rw [positionsOf, mem_positionsAux]
  constructor
  · rintro ⟨a, sl, h1, h2, t, ht, hc⟩
    refine ⟨t, ?_, hc⟩
    have hp1 : p.1 = a := by omega
    rw [fragAt, hp1, h1]
    exact ht
  · rintro ⟨t, ht, hc⟩
    rw [fragAt] at ht
    cases h1 : slides[p.1]? with
    | none => rw [h1] at ht; cases ht
    | some sl =>
        rw [h1] at ht
        exact ⟨p.1, sl, h1, by omega, t, ht, hc⟩

theorem textPositions_snd_bound (si : Nat) (ts : List TextFragment) (ti : Nat)
    (p : Nat × Nat) (h : p ∈ textPositions si ts ti) : ti ≤ p.2 := by
  obtain ⟨-, b, -, h2⟩ := (mem_textPositions si ts ti p).mp h
  omega

theorem positionsAux_fst_bound (slides : List SlideRecord) (si : Nat)
    (p : Nat × Nat) (h : p ∈ positionsAux slides si) : si ≤ p.1 := by
  obtain ⟨a, -, -, h2, -⟩ := (mem_positionsAux slides si p).mp h
  omega

theorem textPositions_fst_eq (si : Nat) (ts : List TextFragment) (ti : Nat)
    (p : Nat × Nat) (h : p ∈ textPositions si ts ti) : p.1 = si :=
  ((mem_textPositions si ts ti p).mp h).1

theorem textPositions_pairwise (si : Nat) (ts : List TextFragment) :
    ∀ ti : Nat, List.Pairwise (fun a b => a.2 < b.2) (textPositions si ts ti) := by
  induction ts with
  | nil => intro ti; simp [textPositions]
  | cons t rest ih =>
      intro ti
      rw [textPositions]
      refine List.pairwise_append.mpr ⟨?_, ih (ti + 1), ?_⟩
      · split <;> simp
      · intro a ha b hb
        have hbb := textPositions_snd_bound si rest (ti + 1) b hb
        have haa : a.2 = ti := by
          split at ha
          · simp only [List.mem_singleton] at ha
            rw [ha]
          · simp at ha
        omega

theorem positionsAux_pairwise (slides : List SlideRecord) :
    ∀ si : Nat, List.Pairwise
      (fun a b => a.1 < b.1 ∨ (a.1 = b.1 ∧ a.2 < b.2)) (positionsAux slides si) := by
  induction slides with
  | nil => intro si; simp [positionsAux]
  | cons sl rest ih =>
      intro si
      rw [positionsAux]
      refine List.pairwise_append.mpr ⟨?_, ih (si + 1), ?_⟩
      · refine (textPositions_pairwise si sl.texts 0).imp_of_mem ?_
        intro a b ha hb hlt
        right
        exact ⟨(textPositions_fst_eq si sl.texts 0 a ha).trans
          (textPositions_fst_eq si sl.texts 0 b hb).symm, hlt⟩
      · intro a ha b hb
        left
        have h1 := textPositions_fst_eq si sl.texts 0 a ha
        have h2 := positionsAux_fst_bound rest (si + 1) b hb
        omega

theorem positionsOf_nodup (slides : List SlideRecord) : (positionsOf slides).Nodup := by
  refine (positionsAux_pairwise slides 0).imp ?_
  intro a b h
  intro hab
  subst hab
  rcases h with h | ⟨-, h⟩ <;> omega

theorem memOfGetQ {α : Type} {l : List α} {n : Nat} {a : α} (h : l[n]? = some a) : a ∈ l := by
  obtain ⟨hn, rfl⟩ := List.getElem?_eq_some.mp h
  exact List.getElem_mem hn

theorem appendLast_get (extra : List TextFragment) :
    ∀ (s : List SlideRecord) (i : Nat),
      (appendLast s extra)[i]? =
        (s[i]?).map (fun sl =>
          if i = s.length - 1 then { sl with texts := sl.texts ++ extra } else sl) := by
  intro s
  induction s with
  | nil => intro i; simp [appendLast]
  | cons sl rest ih =>
      intro i
      cases rest with
      | nil =>
          cases i with
          | zero => simp [appendLast]
          | succ i => simp [appendLast]
      | cons r2 rs =>
          rw [show appendLast (sl :: r2 :: rs) extra
                = sl :: appendLast (r2 :: rs) extra from rfl]
          cases i with
          | zero => simp
          | succ i =>
              simp only [List.getElem?_cons_succ, ih i, List.length_cons]
              cases h : (r2 :: rs)[i]? with
              | none => rfl
              | some u =>
                  by_cases hi : i = rs.length <;> simp [hi]

theorem appendLast_length (extra : List TextFragment) :
    ∀ s : List SlideRecord, (appendLast s extra).length = s.length := by
  intro s
  induction s with
  | nil => rfl
  | cons sl rest ih =>
      cases rest with
      | nil => rfl
      | cons r2 rs =>
          rw [show appendLast (sl :: r2 :: rs) extra
                = sl :: appendLast (r2 :: rs) extra from rfl]
          simp [ih]

theorem totalFrags_appendLast (extra : List TextFragment) :
    ∀ s : List SlideRecord, s ≠ [] →
      totalFrags (appendLast s extra) = totalFrags s + extra.length := by
  intro s
  induction s with
  | nil => intro h; cases h rfl
  | cons sl rest ih =>
      intro _
      cases rest with
      | nil => simp [appendLast, totalFrags]
      | cons r2 rs =>
          rw [show appendLast (sl :: r2 :: rs) extra
                = sl :: appendLast (r2 :: rs) extra from rfl]
          simp only [totalFrags, List.map_cons, List.sum_cons]
          have := ih (List.cons_ne_nil r2 rs)
          simp only [totalFrags] at this
          rw [this]
          simp only [List.map_cons, List.sum_cons]
          omega

theorem contentsOf_appendLast (extra : List TextFragment) :
    ∀ s : List SlideRecord, s ≠ [] →
      contentsOf (appendLast s extra) =
        contentsOf s ++ extra.map (fun t => t.content) := by
  intro s
  induction s with
  | nil => intro h; cases h rfl
  | cons sl rest ih =>
      intro _
      cases rest with
      | nil => simp [appendLast, contentsOf]
      | cons r2 rs =>
          rw [show appendLast (sl :: r2 :: rs) extra
                = sl :: appendLast (r2 :: rs) extra from rfl]
          simp only [contentsOf, List.map_cons, List.flatten_cons]
          have := ih (List.cons_ne_nil r2 rs)
          simp only [contentsOf] at this
          rw [this]
          simp [List.append_assoc]

theorem fragAt_appendLast_some (extra : List TextFragment) (s : List SlideRecord)
    (q : Nat × Nat) (t : TextFragment) (h : fragAt s q = some t) :
    fragAt (appendLast s extra) q = some t := by
  rw [fragAt] at h ⊢
  rw [appendLast_get]
  cases hs : s[q.1]? with
  | none => rw [hs] at h; cases h
  | some sl =>
      rw [hs] at h
      simp only [Option.some_bind] at h
      simp only [Option.map_some', Option.some_bind]
      by_cases hq : q.1 = s.length - 1
      · rw [if_pos hq]
        simp only []
        have hlt : q.2 < sl.texts.length := by
          by_contra hge
          rw [List.getElem?_eq_none (by omega)] at h
          cases h
        rw [List.getElem?_append, if_pos hlt]
        exact h
      · rw [if_neg hq]
        exact h

theorem content_mem_contentsOf (s : List SlideRecord) (q : Nat × Nat) (t : TextFragment)
    (h : fragAt s q = some t) : t.content ∈ contentsOf s := by
  rw [fragAt] at h
  cases hs : s[q.1]? with
  | none => rw [hs] at h; cases h
  | some sl =>
      rw [hs] at h
      simp only [Option.some_bind] at h
      have hsl : sl ∈ s := memOfGetQ hs
      have ht : t ∈ sl.texts := memOfGetQ h
      rw [contentsOf]
      rw [List.mem_flatten]
      exact ⟨sl.texts.map (fun t => t.content), List.mem_map_of_mem _ hsl,
        List.mem_map_of_mem _ ht⟩

/-!
## Assembling `complete_replacement`
-/

theorem extract_nonempty (content : String) :
    ∀ x ∈ extract_all_japanese_text_complete content, x ≠ "" := by
  intro x hx
  rw [extract_all_japanese_text_complete] at hx
  have h := (List.mem_filter.mp hx).2
  intro hxe
  subst hxe
  exact absurd h (by decide)

theorem getD_mem {l : List String} {n : Nat} (h : n < l.length) : l.getD n "" ∈ l := by
  rw [List.getD_eq_getElem l "" h]
  exact l.getElem_mem h

theorem positionsOf_nil : positionsOf [] = [] := rfl

theorem complete_replacement_eq (s : List SlideRecord) (jps : List String)
    (h1 : jps ≠ []) (h2 : positionsOf s ≠ []) :
    complete_replacement s jps =
      some (if (jps.drop (assignLoop jps s (positionsOf s) 0).2).isEmpty
            then (assignLoop jps s (positionsOf s) 0).1
            else appendLast (assignLoop jps s (positionsOf s) 0).1
                   ((jps.drop (assignLoop jps s (positionsOf s) 0).2).map mkNewFragment)) := by
  rw [complete_replacement]
  rw [if_neg (by simp [h1]), if_neg (by simp [h2])]

theorem complete_replacement_some (s : List SlideRecord) (jps : List String)
    (out : List SlideRecord) (h : complete_replacement s jps = some out) :
    (jps ≠ [] ∧ positionsOf s ≠ []) ∧
    (out = (assignLoop jps s (positionsOf s) 0).1 ∨
     out = appendLast (assignLoop jps s (positionsOf s) 0).1
             ((jps.drop (assignLoop jps s (positionsOf s) 0).2).map mkNewFragment)) := by
  rw [complete_replacement] at h
  by_cases c1 : jps.isEmpty
  · rw [if_pos c1] at h
    cases h
  · rw [if_neg c1] at h
    by_cases c2 : (positionsOf s).isEmpty
    · rw [if_pos c2] at h
      cases h
    · rw [if_neg c2] at h
      refine ⟨⟨by simpa using c1, by simpa using c2⟩, ?_⟩
      have h' : some (if (jps.drop (assignLoop jps s (positionsOf s) 0).2).isEmpty
            then (assignLoop jps s (positionsOf s) 0).1
            else appendLast (assignLoop jps s (positionsOf s) 0).1
                   ((jps.drop (assignLoop jps s (positionsOf s) 0).2).map mkNewFragment))
          = some out := h
      by_cases c3 : (jps.drop (assignLoop jps s (positionsOf s) 0).2).isEmpty
      · left
        rw [if_pos c3] at h'
        exact (Option.some_inj.mp h').symm
      · right
        rw [if_neg c3] at h'
        exact (Option.some_inj.mp h').symm

theorem appendLast_frame (extra : List TextFragment) (s : List SlideRecord)
    (i : Nat) (a b : SlideRecord) (hs : s[i]? = some a)
    (hb : (appendLast s extra)[i]? = some b) :
    sameShell b a ∧ a.texts.length ≤ b.texts.length ∧
    (i ≠ s.length - 1 → b = a) ∧
    (∀ j, j < a.texts.length → b.texts[j]? = a.texts[j]?) := by
  rw [appendLast_get, hs] at hb
  simp only [Option.map_some'] at hb
  by_cases hi : i = s.length - 1
  · rw [if_pos hi] at hb
    cases hb
    refine ⟨⟨rfl, rfl, rfl, rfl⟩, ?_, fun hne => absurd hi hne, ?_⟩
    · simp
    · intro j hj
      simp only []
      rw [List.getElem?_append, if_pos hj]
  · rw [if_neg hi] at hb
    cases hb
    exact ⟨sameShell_refl a, le_refl _, fun _ => rfl, fun j _ => rfl⟩

theorem flat_frame (s : List SlideRecord) (jps : List String) (out : List SlideRecord)
    (h : complete_replacement s jps = some out) :
    out.length = s.length ∧
    ∀ (i : Nat) (a b : SlideRecord), s[i]? = some a → out[i]? = some b →
      sameShell b a ∧ a.texts.length ≤ b.texts.length ∧
      (i + 1 ≠ s.length → b.texts.length = a.texts.length) ∧
      ∀ (j : Nat) (t t' : TextFragment), a.texts[j]? = some t →
        b.texts[j]? = some t' → samePlace t' t := by
  obtain ⟨⟨-, hp⟩, hout⟩ := complete_replacement_some s jps out h
  have hmid := assignLoop_contentOnly jps (positionsOf s) s 0
  have hmidlen := assignLoop_length jps (positionsOf s) s 0
  have hsne : s ≠ [] := by
    intro he
    subst he
    exact hp positionsOf_nil
  have key : ∀ (i : Nat) (a x : SlideRecord),
      s[i]? = some a → (assignLoop jps s (positionsOf s) 0).1[i]? = some x →
      contentOnly x a := by
    intro i a x ha hx
    rcases hmid i with ⟨h1, h2⟩ | ⟨u, v, h1, h2, huv⟩
    · rw [h2] at ha
      cases ha
    · rw [h1] at hx
      cases hx
      rw [h2] at ha
      cases ha
      exact huv
  rcases hout with rfl | rfl
  · refine ⟨hmidlen, ?_⟩
    intro i a b ha hb
    have hco := key i a b ha hb
    exact ⟨hco.1, le_of_eq hco.2.1.symm, fun _ => hco.2.1,
      fun j t t' ht ht' => hco.2.2 j t' t ht' ht⟩
  · refine ⟨(appendLast_length _ _).trans hmidlen, ?_⟩
    intro i a b ha hb
    have hi : i < s.length := by
      by_contra hge
      rw [List.getElem?_eq_none (by omega)] at ha
      cases ha
    have hx : ∃ x, (assignLoop jps s (positionsOf s) 0).1[i]? = some x := by
      cases hx : (assignLoop jps s (positionsOf s) 0).1[i]? with
      | none =>
          rw [List.getElem?_eq_none_iff] at hx
          omega
      | some x => exact ⟨x, rfl⟩
    obtain ⟨x, hxeq⟩ := hx
    have hco := key i a x ha hxeq
    obtain ⟨hsh, hle, hlast, hpre⟩ :=
      appendLast_frame _ _ i x b hxeq hb
    refine ⟨sameShell_trans hsh hco.1, hco.2.1 ▸ hle, ?_, ?_⟩
    · intro hne
      rw [hlast (by rw [hmidlen]; omega)]
      exact hco.2.1
    · intro j t t' ht ht'
      have hj : j < a.texts.length := by
        by_contra hge
        rw [List.getElem?_eq_none (by omega)] at ht
        cases ht
      rw [hpre j (by rw [hco.2.1]; exact hj)] at ht'
      exact hco.2.2 j t' t ht' ht

/-!
## Characterizing the validation pass
-/

theorem validateStep_chinese (r : ValidationReport) (c : String) :
    (validateStep r c).chinese_count =
      r.chinese_count + (if residueTest c then 1 else 0) := by
  rw [validateStep, residueTest]
  by_cases h1 : pyStrip c = ""
  · simp [h1]
  · by_cases h2 : hasKana c
    · simp [h1, h2]
    · by_cases h3 : hasCJK c
      · simp [h1, h2, h3]
      · by_cases h4 : hasLatin c <;> simp [h1, h2, h3, h4]

theorem validateStep_examples (r : ValidationReport) (c : String) :
    (validateStep r c).chinese_examples =
      r.chinese_examples ++
        (if residueTest c = true ∧ r.chinese_examples.length < 10
         then [c.take 50] else []) := by
  rw [validateStep, residueTest]
  by_cases h1 : pyStrip c = ""
  · simp [h1]
  · by_cases h2 : hasKana c
    · simp [h1, h2]
    · by_cases h3 : hasCJK c
      · by_cases h5 : r.chinese_examples.length < 10
        · simp [h1, h2, h3, h5]
        · simp [h1, h2, h3, h5]
      · by_cases h4 : hasLatin c <;> simp [h1, h2, h3, h4]

theorem validate_foldl (l : List String) :
    ∀ r : ValidationReport,
      ((l.foldl validateStep r).chinese_count =
        r.chinese_count + l.countP residueTest) ∧
      ((l.foldl validateStep r).chinese_examples =
        r.chinese_examples ++
          (((l.filter residueTest).take (10 - r.chinese_examples.length)).map
            (fun c => c.take 50))) := by
  induction l with
  | nil => intro r; simp
  | cons c l ih =>
      intro r
      rw [List.foldl_cons]
      obtain ⟨ihc, ihe⟩ := ih (validateStep r c)
      constructor
      · rw [ihc, validateStep_chinese, List.countP_cons]
        by_cases h : residueTest c <;> simp [h] <;> omega
      · rw [ihe, validateStep_examples]
        by_cases h : residueTest c = true
        · rw [List.filter_cons_of_pos h]
          by_cases hlen : r.chinese_examples.length < 10
          · rw [if_pos ⟨h, hlen⟩]
            have h10 : 10 - r.chinese_examples.length
                = (10 - (r.chinese_examples.length + 1)) + 1 := by omega
            rw [h10, List.take_succ_cons, List.map_cons]
            simp [List.append_assoc]
          · rw [if_neg (fun hc => hlen hc.2)]
            have h10 : 10 - r.chinese_examples.length = 0 := by omega
            have h10b : 10 - (r.chinese_examples ++ []).length = 0 := by
              simp
              omega
            rw [h10, h10b]
            simp
        · rw [if_neg (fun hc => h hc.1), List.filter_cons_of_neg (by simpa using h)]
          simp

theorem validate_characterization (slides : List SlideRecord) :
    (validate_complete_replacement slides).chinese_count =
      (contentsOf slides).countP residueTest ∧
    (validate_complete_replacement slides).chinese_examples =
      (((contentsOf slides).filter residueTest).take 10).map (fun c => c.take 50) := by
  have h := validate_foldl (contentsOf slides) ⟨0, 0, 0, 0, 0, []⟩
  rw [validate_complete_replacement]
  exact ⟨by rw [h.1]; simp, by rw [h.2]; simp⟩

/-!
## Structured-mode end-to-end runs
-/

theorem fill_emptyParse (slides : List SlideRecord) (txt : String)
    (h : parse_translated_txt txt = []) :
    fill_japanese_content (some (json_dump (slidesToJson slides))) (some txt) =
      some slides := by
  have hload : (json_load (json_dump (slidesToJson slides))).bind slidesFromJson
      = some slides := by
    rw [json_load_dump, Option.some_bind, slides_rt]
  rw [fill_japanese_content]
  simp only []
  rw [hload]
  simp only []
  rw [h, fillSlides_emptyMap]

/-- A one-fragment slide whose content mixes a CJK ideograph with a kana
character. -/
def exSlideMix : SlideRecord :=
  { slide_number := 1, texts := [cFrag "中ひ"], images := [] }

/-- A one-fragment slide whose content is a lone CJK ideograph. -/
def exSlideCJK : SlideRecord :=
  { slide_number := 1, texts := [cFrag "中"], images := [] }

/-!
## The claims
-/

/-- C1 counterexample: with 3 non-empty positions and translated list
`["A", "B"]`, the string `"A"` occurs twice in the output contents, so not
every translated string is used exactly once. -/
theorem C1_counterexample :
    (complete_replacement [exSlide3] ["A", "B"]).map
        (fun out => (contentsOf out).count "A") = some 2 := by
  decide

/-- C1 (amended): in flat-mode reconciliation, *when the translated-string
count equals the position count*, `complete_replacement` succeeds, adds no
fragments, and assigns translated string `i` to position `i` — each string is
used at exactly one position with no wrap-around.  (The unrestricted claim
that every translated string is always used exactly once fails: on a count
mismatch the code both reuses strings cyclically and re-appends the
already-used tail, see the counterexample.) -/
theorem C1_flat_exact_cover (s : List SlideRecord) (jps : List String)
    (hn : 0 < jps.length) (heq : jps.length = (positionsOf s).length) :
    ∃ out, complete_replacement s jps = some out ∧
      totalFrags out = totalFrags s ∧
      ∀ (i : Nat) (hi : i < (positionsOf s).length),
        fragAt out ((positionsOf s)[i]) =
          (fragAt s ((positionsOf s)[i])).map
            (fun t => { t with content := jps.getD i "" }) := by
  have hjne : jps ≠ [] := List.ne_nil_of_length_pos hn
  have hpne : positionsOf s ≠ [] := List.ne_nil_of_length_pos (by omega)
  have hsnd : (assignLoop jps s (positionsOf s) 0).2 = jps.length := by
    rw [assignLoop_snd jps hn (positionsOf s) s 0 hpne (Nat.zero_le _)]
    rw [Nat.zero_mod, Nat.zero_add, ← heq, Nat.mod_eq_of_lt (by omega)]
    omega
  have hdrop : (jps.drop (assignLoop jps s (positionsOf s) 0).2).isEmpty = true := by
    rw [hsnd, List.drop_length]
    rfl
  refine ⟨(assignLoop jps s (positionsOf s) 0).1, ?_, ?_, ?_⟩
  · rw [complete_replacement_eq s jps hjne hpne, if_pos hdrop]
  · exact totalFrags_assignLoop jps (positionsOf s) s 0
  · intro i hi
    rw [assignLoop_nth jps hn (positionsOf s) s 0 i (positionsOf_nodup s)
        (Nat.zero_le _) hi]
    have hidx : (0 % jps.length + i) % jps.length = i := by
      rw [Nat.zero_mod, Nat.zero_add, Nat.mod_eq_of_lt (by omega)]
    rw [hidx]

theorem C1_witness :
    ∃ out, complete_replacement [exSlide3] ["A", "B", "C"] = some out ∧
      totalFrags out = totalFrags [exSlide3] ∧
      ∀ (i : Nat) (hi : i < (positionsOf [exSlide3]).length),
        fragAt out ((positionsOf [exSlide3])[i]) =
          (fragAt [exSlide3] ((positionsOf [exSlide3])[i])).map
            (fun t => { t with content := (["A", "B", "C"] : List String).getD i "" }) :=
  C1_flat_exact_cover [exSlide3] ["A", "B", "C"] (by decide) (by decide)

/-- C2: the spec expects the 3-positions-by-`["A","B"]` run to assign
`[A, B, A]` and report a reuse count of 1.  The code does assign `[A, B, A]`,
but it then treats the cyclically re-consumed `"B"` (`japanese_texts[1:]`,
computed from the wrapped-around index) as *unused* and re-appends it to the
last slide, and it emits no reuse-count warning at all — the output contents
are `[A, B, A, B]`, with `"B"` duplicated. -/
theorem C2_flat_wraparound :
    (complete_replacement [exSlide3] ["A", "B"]).map contentsOf =
      some ["A", "B", "A", "B"] := by
  decide

/-- C3 counterexample: a translated source with no parsable page/block tagging
parses to the empty mapping, and the structured-mode run *completes*
(writing the slides back unchanged) instead of failing fast with a
parse-error signal. -/
theorem C3_counterexample :
    parse_translated_txt exGarbageTxt = [] ∧
    fill_japanese_content (some exOrigJsonText) (some exGarbageTxt) =
      some [exSlide3] := by
  refine ⟨by decide, ?_⟩
  exact fill_emptyParse [exSlide3] exGarbageTxt (by decide)

/-- C3 (amended): in the structured-mode entry point, a missing original file
is caught and swallowed — the run produces no output rather than surfacing a
distinct file-not-found signal — and a translated source whose tagging cannot
be parsed yields the empty mapping and the run continues, passing every slide
through unchanged (no parse-error abort; flat mode is a separate entry point
either way). -/
theorem C3_structured_failures :
    (∀ tf : Option String, fill_japanese_content none tf = none) ∧
    (∀ (slides : List SlideRecord) (txt : String), parse_translated_txt txt = [] →
      fill_japanese_content (some (json_dump (slidesToJson slides))) (some txt) =
        some slides) :=
  ⟨fun _ => rfl, fill_emptyParse⟩

theorem C3_witness :
    fill_japanese_content none (some exGarbageTxt) = none ∧
    fill_japanese_content (some (json_dump (slidesToJson [exSlide3])))
        (some exGarbageTxt) = some [exSlide3] :=
  ⟨C3_structured_failures.1 (some exGarbageTxt),
   C3_structured_failures.2 [exSlide3] exGarbageTxt (by decide)⟩

/-- C4 counterexample: the content `"中ひ"` contains the source-script
ideograph `中`, yet because the kana test runs first it is classified as
target-script: the residue count stays 0 and the string is absent from the
defect report — refuting "every content string containing at least one
source-script character increments the residue count". -/
theorem C4_counterexample :
    hasCJK "中ひ" = true ∧
    (validate_complete_replacement [exSlideMix]).chinese_count = 0 ∧
    (validate_complete_replacement [exSlideMix]).chinese_examples = [] := by
  decide

/-- C4 (amended): the validation pass counts as source-script residue exactly
the non-blank contents that contain a CJK ideograph *and no kana-class
character* (`residueTest`), and its defect report lists the first ten such
contents truncated to 50 characters.  Hence any content containing a
kana-class character — in particular any all-target-script content —
contributes 0, while a content with a source-script character is counted and
reported only if it has no kana-class character. -/
theorem C4_validation_residue (slides : List SlideRecord) :
    (validate_complete_replacement slides).chinese_count =
      (contentsOf slides).countP residueTest ∧
    (validate_complete_replacement slides).chinese_examples =
      (((contentsOf slides).filter residueTest).take 10).map (fun c => c.take 50) ∧
    (∀ c : String, hasKana c = true → residueTest c = false) ∧
    (∀ c : String, pyStrip c ≠ "" → hasKana c = false → hasCJK c = true →
      residueTest c = true) := by
  refine ⟨(validate_characterization slides).1, (validate_characterization slides).2,
    ?_, ?_⟩
  · intro c h
    simp [residueTest, h]
  · intro c h1 h2 h3
    simp [residueTest, h1, h2, h3]

theorem C4_witness :
    (validate_complete_replacement [exSlideCJK]).chinese_count =
      (contentsOf [exSlideCJK]).countP residueTest ∧
    residueTest "中" = true :=
  ⟨(C4_validation_residue [exSlideCJK]).1,
   (C4_validation_residue []).2.2.2 "中" (by decide) (by decide) (by decide)⟩

/-- C5: structured-mode reconciliation maps the slide list one-to-one — the
output has the same length and order as the input — and a slide whose number
has no entry in the translated mapping is passed through unchanged. -/
theorem C5_structured_length :
    (∀ (m : TransMap) (slides : List SlideRecord),
        (fillSlides m slides).1.length = slides.length) ∧
    (∀ (m : TransMap) (slides : List SlideRecord) (i : Nat) (sl : SlideRecord),
        slides[i]? = some sl → lookupMap m sl.slide_number = none →
        (fillSlides m slides).1[i]? = some sl) := by
  refine ⟨fillSlides_length, ?_⟩
  intro m slides i sl h1 h2
  rw [fillSlides_fst, List.getElem?_map, h1, Option.map_some',
    fillSlide_noEntry m sl h2]

theorem C5_witness :
    (fillSlides [] [exSlide3]).1[0]? = some exSlide3 :=
  C5_structured_length.2 [] [exSlide3] 0 exSlide3 (by decide) (by decide)

/-- C6: in structured-mode reconciliation, a fragment index at or beyond the
translated-block count keeps its original fragment unchanged, and in the
concrete shortfall run (slide 1 with 3 fragments against `["X", "Y"]`) the
third fragment keeps its original content and the warnings identify exactly
one under-translated slide. -/
theorem C6_structured_shortfall :
    (∀ (m : TransMap) (sl : SlideRecord) (blocks : List String) (j : Nat),
        lookupMap m sl.slide_number = some blocks → blocks.length ≤ j →
        ((fillSlide m sl).1).texts[j]? = sl.texts[j]?) ∧
    (fillSlides [(1, ["X", "Y"])] [exSlide3]).1 =
      [{ exSlide3 with texts := [cFrag "X", cFrag "Y", cFrag "三"] }] ∧
    underTranslatedSlides (fillSlides [(1, ["X", "Y"])] [exSlide3]).2 = 1 :=
  ⟨fillSlide_keep, by decide, by decide⟩

theorem C6_witness :
    ((fillSlide [(1, ["X", "Y"])] exSlide3).1).texts[2]? = exSlide3.texts[2]? :=
  C6_structured_shortfall.1 [(1, ["X", "Y"])] exSlide3 ["X", "Y"] 2
    (by decide) (by decide)

/-- C7: after a flat-mode reconciliation whose translated list comes from the
line extractor (so every string is non-empty) with at least one string and at
least one position, the pass succeeds, every original non-empty text position
holds a non-empty string in the output, and the total fragment count does not
decrease. -/
theorem C7_flat_coverage (txt : String) (s : List SlideRecord)
    (hn : 0 < (extract_all_japanese_text_complete txt).length)
    (hp : 0 < (positionsOf s).length) :
    ∃ out, complete_replacement s (extract_all_japanese_text_complete txt)
        = some out ∧
      totalFrags s ≤ totalFrags out ∧
      ∀ q ∈ positionsOf s, ∃ t, fragAt out q = some t ∧ t.content ≠ "" := by
  set jps := extract_all_japanese_text_complete txt with hjps
  have hjne : jps ≠ [] := List.ne_nil_of_length_pos hn
  have hpne : positionsOf s ≠ [] := List.ne_nil_of_length_pos hp
  have hsne : s ≠ [] := fun he => hpne (by rw [he]; rfl)
  have hmidne : (assignLoop jps s (positionsOf s) 0).1 ≠ [] := by
    intro he
    have hlen := assignLoop_length jps (positionsOf s) s 0
    rw [he] at hlen
    exact hsne (List.length_eq_zero.mp hlen.symm)
  have hfrag : ∀ q ∈ positionsOf s,
      ∃ t, fragAt (assignLoop jps s (positionsOf s) 0).1 q = some t ∧
        t.content ≠ "" := by
    intro q hq
    obtain ⟨i, hi, hqi⟩ := List.mem_iff_getElem.mp hq
    obtain ⟨t0, ht0, hc⟩ := (mem_positionsOf s q).mp hq
    have hnth := assignLoop_nth jps hn (positionsOf s) s 0 i (positionsOf_nodup s)
        (Nat.zero_le _) hi
    rw [hqi] at hnth
    rw [hnth, ht0, Option.map_some']
    refine ⟨_, rfl, ?_⟩
    have hk : (0 % jps.length + i) % jps.length < jps.length := Nat.mod_lt _ hn
    exact extract_nonempty txt _ (getD_mem hk)
  rw [complete_replacement_eq s jps hjne hpne]
  by_cases hrem : (jps.drop (assignLoop jps s (positionsOf s) 0).2).isEmpty
  · rw [if_pos hrem]
    refine ⟨_, rfl, ?_, hfrag⟩
    rw [totalFrags_assignLoop]
  · rw [if_neg hrem]
    refine ⟨_, rfl, ?_, ?_⟩
    · rw [totalFrags_appendLast _ _ hmidne, totalFrags_assignLoop]
      omega
    · intro q hq
      obtain ⟨t, ht, hc⟩ := hfrag q hq
      exact ⟨t, fragAt_appendLast_some _ _ q t ht, hc⟩

theorem C7_witness :
    ∃ out, complete_replacement [exSlide3]
        (extract_all_japanese_text_complete "A\nB") = some out ∧
      totalFrags [exSlide3] ≤ totalFrags out ∧
      ∀ q ∈ positionsOf [exSlide3], ∃ t, fragAt out q = some t ∧ t.content ≠ "" :=
  C7_flat_coverage "A\nB" [exSlide3] (by decide) (by decide)

/-- C8: the record set serializes to the intermediate JSON text and parses
back to a value equal to the original in every field the format defines — the
interchange round-trip is lossless. -/
theorem C8_interchange_roundtrip (rs : List SlideRecord) :
    (json_load (json_dump (slidesToJson rs))).bind slidesFromJson = some rs := by
  rw [json_load_dump, Option.some_bind, slides_rt]

/-- C9: if the translation service raises on a fragment's text, the Translator
returns that fragment's original text (recorded alongside as
`original_content`), and the batch loop still processes every slide and every
fragment — the output keeps the full slide and fragment counts, with no
retry of the failed call. -/
theorem C9_translator_fallback (svc : String → Except String String)
    (slides : List SlideRecord) (i j : Nat) (sl : SlideRecord) (t : TextFragment)
    (e : String) (h1 : slides[i]? = some sl) (h2 : sl.texts[j]? = some t)
    (h3 : svc t.content = .error e) :
    (batch_translate_slides svc slides).length = slides.length ∧
    ∃ sl', (batch_translate_slides svc slides)[i]? = some sl' ∧
      sl'.texts.length = sl.texts.length ∧
      sl'.texts[j]? = some { content := t.content,
                             original_content := some t.content } := by
  constructor
  · rw [batch_translate_slides]
    exact List.length_map ..
  · rw [batch_translate_slides, List.getElem?_map, h1, Option.map_some']
    refine ⟨_, rfl, ?_, ?_⟩
    · simp
    · simp only [List.getElem?_map, h2, Option.map_some']
      rw [translate_to_japanese, h3]

theorem C9_witness :
    (batch_translate_slides (fun _ => Except.error "boom") [exSlide3]).length
        = [exSlide3].length ∧
    ∃ sl', (batch_translate_slides (fun _ => Except.error "boom")
        [exSlide3])[0]? = some sl' ∧
      sl'.texts.length = exSlide3.texts.length ∧
      sl'.texts[0]? = some { content := (cFrag "一").content,
                             original_content := some (cFrag "一").content } :=
  C9_translator_fallback (fun _ => Except.error "boom") [exSlide3] 0 0 exSlide3
    (cFrag "一") "boom" (by decide) (by decide) rfl

/-- C10: both reconciliation modes change only fragment `content`: structured
mode relates every output slide to its input slide by `contentOnly` (same
shell, same fragment count, corresponding fragments identical outside
`content`), and flat mode keeps the slide count, keeps every non-final
slide's fragment count, keeps every pre-existing fragment's non-`content`
fields, and can only grow the last slide's fragment list. -/
theorem C10_frame_effects :
    (∀ (m : TransMap) (slides : List SlideRecord) (i : Nat) (a b : SlideRecord),
        slides[i]? = some a → (fillSlides m slides).1[i]? = some b →
        contentOnly b a) ∧
    (∀ (s : List SlideRecord) (jps : List String) (out : List SlideRecord),
        complete_replacement s jps = some out →
        out.length = s.length ∧
        ∀ (i : Nat) (a b : SlideRecord), s[i]? = some a → out[i]? = some b →
          sameShell b a ∧ a.texts.length ≤ b.texts.length ∧
          (i + 1 ≠ s.length → b.texts.length = a.texts.length) ∧
          ∀ (j : Nat) (t t' : TextFragment), a.texts[j]? = some t →
            b.texts[j]? = some t' → samePlace t' t) := by
  constructor
  · intro m slides i a b ha hb
    rw [fillSlides_fst, List.getElem?_map, ha, Option.map_some'] at hb
    cases hb
    exact ⟨fillSlide_shell m a, fillSlide_texts_len m a,
      fun j t t' ht ht' => fillSlide_samePlace m a j t' t ht' ht⟩
  · exact flat_frame

theorem C10_witness :
    contentOnly exSlide3 exSlide3 ∧
    ([{ exSlide3 with texts := [cFrag "A", cFrag "B", cFrag "A", cFrag "B"] }]
        : List SlideRecord).length = [exSlide3].length :=
  ⟨C10_frame_effects.1 [] [exSlide3] 0 exSlide3 exSlide3 (by decide) (by decide),
   (C10_frame_effects.2 [exSlide3] ["A", "B"]
      [{ exSlide3 with texts := [cFrag "A", cFrag "B", cFrag "A", cFrag "B"] }]
      (by decide)).1⟩
